import Mathlib

/-!
# caddy-exec: `Cmd.run` (run.go)

A shallow embedding of `func (c *Cmd) run(args []string) (string, string, error)`.

The function is almost entirely glue around the Go standard library
(`os/exec`, `io.MultiWriter`, `context`, channels, `zap`).  The embedding keeps
the control flow of `run` line by line and represents the library and the
operating system by an explicit `World`:

* what `cmd.Start()` yields for a command line (an error, or a child process),
* what the child writes to its two output streams and how it ends,
* how every external `io.Writer` answers each `Write` call.

Each goroutine of an invocation is described by the list of `Event`s it
performs; `Machine` interleaves these lists under an arbitrary schedule, with
the buffered channel `done` as the only shared state.
-/

namespace Command

/-! ## Values of the Go runtime and library -/

/-- Go `error` values that can occur in an invocation (`nil` is `none` of `Option GoError`). -/
inductive GoError
  /-- an error returned by `cmd.Start()` -/
  | start (reason : String)
  /-- `*exec.ExitError` of a child that exited with a non-zero code -/
  | exit (code : Nat)
  /-- `*exec.ExitError` of a child terminated by a signal; a child killed at the
  deadline gives the one of signal 9, "signal: killed" -/
  | signal (sig : Nat)
  /-- `io.ErrShortWrite` -/
  | shortWrite
  /-- the error "invalid write result" of `io.Copy` -/
  | invalidWrite
  /-- an error returned by the `Write` method of an external writer -/
  | write (reason : String)
  /-- the error of `cmd.Wait()` on a command that was not started -/
  | notStarted
  deriving DecidableEq, Repr

/-- The two output streams of the child. -/
inductive Stream
  | stdout
  | stderr
  deriving DecidableEq, Repr

/-- The pair `(n int, err error)` returned by `Write`. -/
structure WriteResult where
  n : Nat
  err : Option GoError
  deriving DecidableEq, Repr

/-- How a child process ends on its own. -/
inductive Ending
  | exited (code : Nat)
  | signaled (sig : Nat)
  deriving DecidableEq, Repr

/-- A started child process, as the operating system makes it behave.
`writes` is its output, in the chunks and in the order in which the copying
goroutines of `os/exec` take it from the pipes of the child and pass it to
`cmd.Stdout` / `cmd.Stderr` for as long as they copy; `natural` is the way the
child ends on its own (`none`: it never does); `overrun` says that a deadline,
if one is set, elapses while the child is still running; `pipesClose` says that
the output pipes reach end of file once the child has ended (`false`: a
descendant of the child keeps a pipe open for ever). -/
structure Child where
  writes : List (Stream × String)
  natural : Option Ending
  overrun : Bool
  pipesClose : Bool
  deriving DecidableEq, Repr

/-- The fate of the child process itself, given whether it runs under a
deadline context. -/
inductive Fate
  | ended (e : Ending)
  | killedAtDeadline
  | runsForever
  deriving DecidableEq, Repr

/-- `exec.CommandContext`: the context kills the child process if the deadline
passes before the child has completed on its own. Without a context nothing
ends a child that does not end by itself. This is the fate of the process
only: whether `cmd.Wait()` returns depends on the output pipes as well, see
`ExecCmd.Wait`. -/
def Child.fate (hasDeadline : Bool) (ch : Child) : Fate :=
  match ch.natural with
  | some e => if hasDeadline && ch.overrun then .killedAtDeadline else .ended e
  | none => if hasDeadline then .killedAtDeadline else .runsForever

/-- The environment of an invocation. `spawn path args dir` is the outcome of
starting the executable `path` with the argument vector `args` in directory
`dir` (an error, or the child). `write w history p` is the answer of the
external writer `w` to `Write(p)` after it has been handed the chunks `history`.
External writers are named by numbers: equal numbers are the same object. -/
structure World where
  spawn : String → List String → String → Except GoError Child
  write : Nat → List String → String → WriteResult

/-! ## Writers -/

/-- Something a chunk can be written to: an external writer, or one of the two
`strings.Builder`s of the invocation (`&outBuffer`, `&errBuffer`). -/
inductive Target
  | external (w : Nat)
  | builder (s : Stream)
  deriving DecidableEq, Repr

/-- The value of `cmd.Stdout` / `cmd.Stderr`: a writer used as it is, or the
result of `io.MultiWriter`. -/
inductive Sink
  | direct (t : Target)
  | multi (ts : List Target)
  deriving DecidableEq, Repr

/-- The writers a sink forwards to. -/
def Sink.targets : Sink → List Target
  | .direct t => [t]
  | .multi ts => ts

/-- `io.MultiWriter(writers...)`: a fresh writer over the given ones, nested
multi-writers being flattened. -/
def MultiWriter (ws : List Sink) : Sink :=
  .multi (ws.flatMap Sink.targets)

/-- A `Write` call on an external writer, kept for the record: the writer, the
stream of the child the chunk came from, and the chunk. -/
structure WriteCall where
  writer : Nat
  origin : Stream
  chunk : String
  deriving DecidableEq, Repr

/-- Writers, buffers and copying goroutines of one invocation.
`outStopped` / `errStopped`: the goroutine copying that stream has ended with an
error; `copyErr`: the first such error. -/
structure IOState where
  calls : List WriteCall
  outBuffer : String
  errBuffer : String
  outStopped : Bool
  errStopped : Bool
  copyErr : Option GoError
  deriving DecidableEq, Repr

/-- State before the child has written anything. -/
def IOState.init : IOState :=
  { calls := [], outBuffer := "", errBuffer := "", outStopped := false,
    errStopped := false, copyErr := none }

/-- The chunks an external writer has been handed so far, in order. -/
def IOState.received (st : IOState) (w : Nat) : List String :=
  (st.calls.filter (fun c => c.writer = w)).map WriteCall.chunk

/-- The chunks of stream `s` that an external writer has been handed so far. -/
def IOState.receivedFrom (st : IOState) (w : Nat) (s : Stream) : List String :=
  (st.calls.filter (fun c => c.writer = w ∧ c.origin = s)).map WriteCall.chunk

/-- Go `len(p)` of a string: its length in bytes. -/
def len (p : String) : Nat := p.utf8ByteSize

/-- One `Write(p)` on a target. `strings.Builder.Write` appends and always
returns `len(p), nil`. -/
def Target.write (W : World) (o : Stream) (p : String) (st : IOState) :
    Target → IOState × WriteResult
  | .external w =>
    ({ st with calls := st.calls ++ [⟨w, o, p⟩] }, W.write w (st.received w) p)
  | .builder .stdout => ({ st with outBuffer := st.outBuffer ++ p }, ⟨len p, none⟩)
  | .builder .stderr => ({ st with errBuffer := st.errBuffer ++ p }, ⟨len p, none⟩)

/-- The loop of `(*multiWriter).Write`: each writer in turn; an error stops the
loop and is returned, a count other than `len(p)` stops it with
`io.ErrShortWrite`; the writers after it are not called. -/
def multiWrite (W : World) (o : Stream) (p : String) :
    List Target → IOState → IOState × WriteResult
  | [], st => (st, ⟨len p, none⟩)
  | t :: ts, st =>
    let (st1, r) := t.write W o p st
    match r.err with
    | some e => (st1, ⟨r.n, some e⟩)
    | none =>
      if r.n ≠ len p then (st1, ⟨r.n, some .shortWrite⟩)
      else multiWrite W o p ts st1

/-- One `Write(p)` on a sink. -/
def Sink.write (W : World) (o : Stream) (p : String) (st : IOState) :
    Sink → IOState × WriteResult
  | .direct t => t.write W o p st
  | .multi ts => multiWrite W o p ts st

/-- The step of `io.Copy` after a `Write` of `p` has returned `r`: the error
that ends the copy, if any. The error of the writer if there is one; else
"invalid write result" for a count larger than `len(p)`; else
`io.ErrShortWrite` for a count smaller than `len(p)`. -/
def copyError (p : String) (r : WriteResult) : Option GoError :=
  match r.err with
  | some e => some e
  | none =>
    if len p < r.n then some .invalidWrite
    else if r.n ≠ len p then some .shortWrite
    else none

/-- `os/exec` uses one pipe and one copying goroutine for both streams when
`cmd.Stderr` is the very same writer as `cmd.Stdout`; a multi-writer is a fresh
object and equal to nothing else. -/
def sharedPipe (stdout stderr : Sink) : Bool :=
  match stdout, stderr with
  | .direct a, .direct b => a = b
  | _, _ => false

/-- The copying goroutines of `os/exec` receive one chunk from the child: it is
written to the sink of its stream unless that copy has already ended; a failed
write ends the copy (of both streams when they share a pipe). -/
def copyChunk (W : World) (stdout stderr : Sink) (st : IOState)
    (ev : Stream × String) : IOState :=
  match ev.1 with
  | .stdout =>
    if st.outStopped then st
    else
      let (st1, r) := stdout.write W .stdout ev.2 st
      match copyError ev.2 r with
      | none => st1
      | some e =>
        { st1 with outStopped := true,
                   errStopped := st1.errStopped || sharedPipe stdout stderr,
                   copyErr := st1.copyErr <|> some e }
  | .stderr =>
    if st.errStopped then st
    else
      let (st1, r) := stderr.write W .stderr ev.2 st
      match copyError ev.2 r with
      | none => st1
      | some e =>
        { st1 with errStopped := true,
                   outStopped := st1.outStopped || sharedPipe stdout stderr,
                   copyErr := st1.copyErr <|> some e }

/-- All chunks of a child, in order. -/
def copyAll (W : World) (stdout stderr : Sink) (st : IOState)
    (writes : List (Stream × String)) : IOState :=
  writes.foldl (copyChunk W stdout stderr) st

/-! ## The configuration -/

/-- Modelled from the spec: the declaration of `Cmd` is not part of run.go. The
fields are the ones `run` reads: the executable, the working directory, the
`Foreground` flag, the timeout (a `time.Duration`, in nanoseconds), the two
placeholder names, the primary writer and the optional error writer. The logger
`c.log` is represented by the log entries an invocation emits. -/
structure Cmd where
  Command : String
  Directory : String
  Foreground : Bool
  timeout : Int
  OutPlaceholder : String
  ErrPlaceholder : String
  stdWriter : Nat
  errWriter : Option Nat
  deriving DecidableEq, Repr

/-- Severity of a log entry. -/
inductive Level
  | info
  | error
  deriving DecidableEq, Repr

/-- An entry written through `log`: the logger name, the field `command`
(executable and arguments), the message and the attached error. The field
`duration` is wall-clock time and is left out. -/
structure LogEntry where
  level : Level
  name : String
  command : List String
  msg : String
  error : Option GoError
  deriving DecidableEq, Repr

/-- What a goroutine of an invocation does, one event per statement that
touches the process, the channel, the context or the logger. -/
inductive Event
  /-- `done := make(chan struct{}, cap)` -/
  | makeDone (cap : Nat)
  /-- `ctx, cancel := context.WithTimeout(context.Background(), d)` -/
  | withTimeout (d : Int)
  /-- `go func() { <-done; cancel() }()` -/
  | goGuard
  /-- `err := cmd.Start()` -/
  | start (err : Option GoError)
  /-- `cmd.Wait()` is called -/
  | waitCall
  /-- `cmd.Wait()` has returned `err` -/
  | waitReturn (err : Option GoError)
  /-- `done <- struct{}{}` -/
  | sendDone
  /-- `<-done` -/
  | recvDone
  /-- `cancel()` -/
  | cancel
  /-- `log.Error("", zap.Error(err))` or `log.Info("")` -/
  | log (entry : LogEntry)
  /-- `go wait(err)` -/
  | goWait
  /-- `return out, err, e` from `run` -/
  | ret (out err : String) (e : Option GoError)
  deriving DecidableEq, Repr

/-- The fields of `exec.Cmd` that `run` uses. `deadline`: the command was made
by `exec.CommandContext` with the deadline context. `Process` is nil (`none`)
until the command has been started. -/
structure ExecCmd where
  Path : String
  Args : List String
  deadline : Bool
  Stdout : Sink
  Stderr : Sink
  Dir : String
  Process : Option Child
  deriving DecidableEq, Repr

/-- `cmd.Start()`: on success `cmd.Process` is set and the error is nil; on
failure the error is returned and `cmd.Process` stays nil. -/
def ExecCmd.Start (W : World) (cmd : ExecCmd) : ExecCmd × Option GoError :=
  match W.spawn cmd.Path cmd.Args cmd.Dir with
  | .ok child => ({ cmd with Process := some child }, none)
  | .error e => (cmd, some e)

/-- The writers and buffers after the chunks `ws` of the output of the child
have been copied to `cmd.Stdout` and `cmd.Stderr`. -/
def ExecCmd.outputAfter (W : World) (cmd : ExecCmd) (ws : List (Stream × String)) : IOState :=
  copyAll W cmd.Stdout cmd.Stderr IOState.init ws

/-- The writers and buffers after the output of the child, if one was started,
has been copied to `cmd.Stdout` and `cmd.Stderr`. -/
def ExecCmd.output (W : World) (cmd : ExecCmd) : IOState :=
  match cmd.Process with
  | some child => cmd.outputAfter W child.writes
  | none => IOState.init

/-- `cmd.Wait()`; the outer `none` means that the call never returns. It waits
for the child process to end and for the copying goroutines to end; a copying
goroutine ends when its pipe reaches end of file or when a `Write` fails. No
`WaitDelay` is set, so with a pipe that stays open the call blocks, also after
the child has been killed at the deadline. When it returns: nil if the child
exited with status zero and there was no problem copying its output; the exit
error of a child that did not complete successfully (for a child killed at the
deadline the ordinary one, "signal: killed"); a copy error only if the child
otherwise ended normally. -/
def ExecCmd.Wait (W : World) (cmd : ExecCmd) : Option (Option GoError) :=
  match cmd.Process with
  | none => some (some .notStarted)
  | some child =>
    if child.pipesClose || ((cmd.output W).outStopped && (cmd.output W).errStopped) then
      match child.fate cmd.deadline with
      | .runsForever => none
      | .killedAtDeadline => some (some (.signal 9))
      | .ended (.signaled s) => some (some (.signal s))
      | .ended (.exited 0) => some (cmd.output W).copyErr
      | .ended (.exited (n + 1)) => some (some (.exit (n + 1)))
    else none

/-- The command that `run` builds before starting it (run.go:27-61):
`exec.Command` or, with a positive timeout, `exec.CommandContext`, then the
block "configure command". -/
def Cmd.command (c : Cmd) (args : List String) : ExecCmd :=
  -- `cmd.Stdout = c.stdWriter`, `cmd.Stderr = c.stdWriter`
  let Stdout : Sink := .direct (.external c.stdWriter)
  let Stderr : Sink := .direct (.external c.stdWriter)
  -- `if c.errWriter != nil { cmd.Stderr = c.errWriter }`
  let Stderr : Sink :=
    match c.errWriter with
    | some w => .direct (.external w)
    | none => Stderr
  -- `if len(c.OutPlaceholder) > 0 { cmd.Stdout = io.MultiWriter(cmd.Stdout, &outBuffer) }`
  let Stdout : Sink :=
    if len c.OutPlaceholder > 0 then MultiWriter [Stdout, .direct (.builder .stdout)]
    else Stdout
  -- `if len(c.ErrPlaceholder) > 0 { cmd.Stderr = io.MultiWriter(cmd.Stderr, &errBuffer) }`
  let Stderr : Sink :=
    if len c.ErrPlaceholder > 0 then MultiWriter [Stderr, .direct (.builder .stderr)]
    else Stderr
  { Path := c.Command, Args := c.Command :: args, deadline := decide (c.timeout > 0),
    Stdout := Stdout, Stderr := Stderr, Dir := c.Directory, Process := none }

/-- The values returned by `run`. -/
structure Returned where
  out : String
  err : String
  error : Option GoError
  deriving DecidableEq, Repr

/-- Outcome of the closure `wait`: the events it performs, the final state of
writers and buffers, and the values it returns (`none` when it never returns). -/
structure WaitStep where
  events : List Event
  io : IOState
  result : Option Returned
  deriving DecidableEq, Repr

/-- The closure `wait` (run.go:63-83) for the command `cmd` and argument `err`.
`cmd.Wait()` is called only if `cmd.Process` is not nil; when it never returns,
nothing after it happens. -/
def Cmd.wait (c : Cmd) (args : List String) (W : World) (cmd : ExecCmd)
    (err : Option GoError) : WaitStep :=
  let io := cmd.output W
  -- only wait if start was successful: `if cmd.Process != nil { err = cmd.Wait() }`
  let waited : List Event × Option (Option GoError) :=
    match cmd.Process with
    | some _ =>
      match cmd.Wait W with
      | some e => ([.waitCall, .waitReturn e], some e)
      | none => ([.waitCall], none)
    | none => ([], some err)
  match waited.2 with
  | none => { events := waited.1, io := io, result := none }
  | some err =>
    -- `done <- struct{}{}`, then the logger named "exit", then the two buffers
    let entry (l : Level) (e : Option GoError) : LogEntry :=
      { level := l, name := "exit", command := c.Command :: args, msg := "", error := e }
    let cmdOut := io.outBuffer
    let cmdErr := io.errBuffer
    if err ≠ none then
      -- `log.Error("", zap.Error(err)); return cmdOut, cmdErr, err`
      { events := waited.1 ++ [.sendDone, .log (entry .error err)], io := io,
        result := some ⟨cmdOut, cmdErr, err⟩ }
    else
      -- `log.Info(""); return cmdOut, cmdErr, nil`
      { events := waited.1 ++ [.sendDone, .log (entry .info none)], io := io,
        result := some ⟨cmdOut, cmdErr, none⟩ }

/-- An invocation of `run`: the events of the calling goroutine, of the
goroutine `go wait(err)` and of the goroutine guarding the deadline (empty when
the goroutine is not started), the final state of writers and buffers, and the
values returned (`none` when `run` never returns). -/
structure Invocation where
  main : List Event
  waiter : List Event
  guard : List Event
  io : IOState
  result : Option Returned
  deriving DecidableEq, Repr

/-- The method `run` (run.go:22-94). -/
def Cmd.run (c : Cmd) (args : List String) (W : World) : Invocation :=
  -- `done := make(chan struct{}, 1)`
  let done : List Event := [.makeDone 1]
  -- `if c.timeout > 0 { ctx, cancel := ...; go func() { <-done; cancel() }(); ... }`
  let timeout : List Event := if c.timeout > 0 then [.withTimeout c.timeout, .goGuard] else []
  let guard : List Event := if c.timeout > 0 then [.recvDone, .cancel] else []
  -- `exec.Command` / `exec.CommandContext` and the block "configure command"
  let cmd := c.command args
  -- `err := cmd.Start()`
  let (cmd, err) := cmd.Start W
  let w := c.wait args W cmd err
  if c.Foreground then
    -- `return wait(err)`
    { main := done ++ timeout ++ [.start err] ++ w.events ++
        (match w.result with
         | some r => [.ret r.out r.err r.error]
         | none => []),
      waiter := [], guard := guard, io := w.io, result := w.result }
  else
    -- `go wait(err)`, then `return "", "", err`
    { main := done ++ timeout ++ [.start err, .goWait, .ret "" "" err],
      waiter := w.events, guard := guard, io := w.io,
      result := some ⟨"", "", err⟩ }

/-! ## Goroutines and the channel `done` -/

/-- The goroutines of an invocation: the caller of `run`, `go wait(err)`, and
the goroutine guarding the deadline. -/
inductive Tid
  | main
  | waiter
  | guard
  deriving DecidableEq, Repr

/-- State of a running invocation. `main` are the events the caller has still
to perform; `waiter` and `guard` likewise, `none` while that goroutine has not
been started. `chanCap` and `chanLen` are capacity and fill of `done` (capacity
zero: the channel does not exist yet). `trace` lists what has happened. -/
structure Machine where
  main : List Event
  waiter : Option (List Event)
  guard : Option (List Event)
  chanCap : Nat
  chanLen : Nat
  trace : List (Tid × Event)
  deriving DecidableEq, Repr

/-- State at the call of `run`. -/
def Machine.init (inv : Invocation) : Machine :=
  { main := inv.main, waiter := none, guard := none, chanCap := 0, chanLen := 0, trace := [] }

/-- Whether an event can happen now: a send blocks while the channel is full,
a receive blocks while it is empty; nothing else in `run` blocks on the
channel. -/
def Event.enabled (m : Machine) : Event → Bool
  | .sendDone => decide (m.chanLen < m.chanCap)
  | .recvDone => decide (0 < m.chanLen)
  | _ => true

/-- What an event does to the channel and the goroutines. -/
def Machine.effect (inv : Invocation) (m : Machine) : Event → Machine
  | .makeDone cap => { m with chanCap := cap }
  | .goGuard => { m with guard := some inv.guard }
  | .goWait => { m with waiter := some inv.waiter }
  | .sendDone => { m with chanLen := m.chanLen + 1 }
  | .recvDone => { m with chanLen := m.chanLen - 1 }
  | _ => m

/-- The events a goroutine has still to perform (`none`: not started). -/
def Machine.rest (m : Machine) : Tid → Option (List Event)
  | .main => some m.main
  | .waiter => m.waiter
  | .guard => m.guard

/-- Replace the remaining events of a goroutine. -/
def Machine.setRest (m : Machine) (t : Tid) (r : List Event) : Machine :=
  match t with
  | .main => { m with main := r }
  | .waiter => { m with waiter := some r }
  | .guard => { m with guard := some r }

/-- Goroutine `t` performs its next event; `none` if it is not started, has
nothing left to do, or is blocked on the channel. -/
def Machine.step (inv : Invocation) (m : Machine) (t : Tid) : Option Machine :=
  match m.rest t with
  | some (e :: r) =>
    if e.enabled m then
      some (({ m.setRest t r with trace := m.trace ++ [(t, e)] }).effect inv e)
    else none
  | _ => none

/-- Run under a schedule: the scheduler picks goroutines one after the other; a
pick that cannot step leaves the state as it is. -/
def Machine.exec (inv : Invocation) (m : Machine) (sched : List Tid) : Machine :=
  sched.foldl (fun m t => (m.step inv t).getD m) m

/-- The states an invocation can reach. -/
def Invocation.reach (inv : Invocation) (sched : List Tid) : Machine :=
  (Machine.init inv).exec inv sched

/-- No goroutine can step: each is finished, not started, or blocked. -/
def Machine.quiescent (inv : Invocation) (m : Machine) : Prop :=
  m.step inv .main = none ∧ m.step inv .waiter = none ∧ m.step inv .guard = none

instance (inv : Invocation) (m : Machine) : Decidable (m.quiescent inv) :=
  inferInstanceAs (Decidable (_ ∧ _ ∧ _))

/-- The events of a trace performed by goroutine `t`, in order. -/
def proj (t : Tid) (tr : List (Tid × Event)) : List Event :=
  (tr.filter (fun x => x.1 = t)).map Prod.snd

/-- The events goroutine `t` performs in the invocation. -/
def Invocation.prog (inv : Invocation) : Tid → List Event
  | .main => inv.main
  | .waiter => inv.waiter
  | .guard => inv.guard

/-- The events of the trace, without the goroutine that performed them. -/
def Machine.events (m : Machine) : List Event :=
  m.trace.map Prod.snd

/-- In the list `l`, every element satisfying `q` has an element satisfying `p`
somewhere before it. -/
def Precedes {α : Type} (p q : α → Bool) (l : List α) : Prop :=
  ∀ pre x post, l = pre ++ x :: post → q x = true → ∃ y ∈ pre, p y = true

/-- A check of `Precedes` by one pass over the list. -/
def precedesB {α : Type} (p q : α → Bool) : List α → Bool
  | [] => true
  | x :: xs => if q x then false else if p x then true else precedesB p q xs

/-- The event is `err := cmd.Start()`. -/
def Event.isStart : Event → Bool
  | .start _ => true
  | _ => false

/-- The event is the return of `cmd.Wait()`. -/
def Event.isWaitReturn : Event → Bool
  | .waitReturn _ => true
  | _ => false

/-- The event is the send on `done`. -/
def Event.isSend : Event → Bool
  | .sendDone => true
  | _ => false

/-- The event is the receive from `done`. -/
def Event.isRecv : Event → Bool
  | .recvDone => true
  | _ => false

/-- The event is `cancel()`. -/
def Event.isCancel : Event → Bool
  | .cancel => true
  | _ => false

/-- The event is a log entry. -/
def Event.isLog : Event → Bool
  | .log _ => true
  | _ => false

/-- The event is the return from `run`. -/
def Event.isRet : Event → Bool
  | .ret _ _ _ => true
  | _ => false

/-- The event is `go wait(err)`. -/
def Event.isGoWait : Event → Bool
  | .goWait => true
  | _ => false

/-- The event is the start of the goroutine guarding the deadline. -/
def Event.isGoGuard : Event → Bool
  | .goGuard => true
  | _ => false

/-- The shape of the event lists of an invocation on which the interleaving
relies: the caller first makes the channel, with capacity one; it performs no
event twice; only the caller makes channels and starts goroutines. -/
structure Invocation.WF (inv : Invocation) : Prop where
  head : ∃ tail, inv.main = .makeDone 1 :: tail
  nodup : inv.main.Nodup
  make : ∀ t k, Event.makeDone k ∈ inv.prog t → k = 1
  spawned : ∀ e ∈ inv.waiter ++ inv.guard, e ≠ .goWait ∧ e ≠ .goGuard ∧ ∀ k, e ≠ .makeDone k

/-- The invariant of the interleaving: every goroutine has performed a prefix
of its events and has the rest still to do; a goroutine runs exactly when the
caller has started it; the fill of the channel is the number of sends less the
number of receives; the channel has capacity one once it is made. -/
structure Machine.Inv (inv : Invocation) (m : Machine) : Prop where
  main : proj .main m.trace ++ m.main = inv.main
  waiter : (m.waiter = none ∧ proj .waiter m.trace = [] ∧ Event.goWait ∉ proj .main m.trace) ∨
    (∃ r, m.waiter = some r ∧ proj .waiter m.trace ++ r = inv.waiter ∧
      Event.goWait ∈ proj .main m.trace)
  guard : (m.guard = none ∧ proj .guard m.trace = [] ∧ Event.goGuard ∉ proj .main m.trace) ∨
    (∃ r, m.guard = some r ∧ proj .guard m.trace ++ r = inv.guard ∧
      Event.goGuard ∈ proj .main m.trace)
  chan : m.chanLen + m.events.count .recvDone = m.events.count .sendDone
  cap : (∃ k, Event.makeDone k ∈ m.events) → m.chanCap = 1

/-! ## Derived notions used in the statements -/

/-- The buffer capturing stream `s`. -/
def IOState.buffer (st : IOState) : Stream → String
  | .stdout => st.outBuffer
  | .stderr => st.errBuffer

/-- Whether the copy of stream `s` has ended with an error. -/
def IOState.stopped (st : IOState) : Stream → Bool
  | .stdout => st.outStopped
  | .stderr => st.errStopped

/-- The chunks a child wrote to stream `s`, in order. -/
def chunksOf (s : Stream) (writes : List (Stream × String)) : List String :=
  (writes.filter (fun ev => ev.1 = s)).map Prod.snd

/-- The call `cmd.Wait()` in `wait` is reached and never returns: the command
was started, and the child never ends or an output pipe never reaches end of
file. -/
def Cmd.waitsForever (c : Cmd) (args : List String) (W : World) : Bool :=
  match ((c.command args).Start W).1.Process with
  | some _ => (((c.command args).Start W).1.Wait W).isNone
  | none => false

/-- The external writer `w` accepts every chunk: `Write(p)` returns `len(p), nil`
whatever the writer has been handed before. -/
def World.accepts (W : World) (w : Nat) : Prop :=
  ∀ h p, W.write w h p = ⟨len p, none⟩

/-- The placeholder that switches on the capture of stream `s`. -/
def Cmd.placeholder (c : Cmd) : Stream → String
  | .stdout => c.OutPlaceholder
  | .stderr => c.ErrPlaceholder

/-- The external writer stream `s` is bound to (run.go:49-53): the primary
writer for stdout; for stderr the error writer, or the primary writer when no
error writer is configured. -/
def Cmd.writer (c : Cmd) : Stream → Nat
  | .stdout => c.stdWriter
  | .stderr => c.errWriter.getD c.stdWriter

/-- The string returned for stream `s`. -/
def Returned.capture (r : Returned) : Stream → String
  | .stdout => r.out
  | .stderr => r.err

/-- The value of `cmd.Stdout` or `cmd.Stderr`. -/
def ExecCmd.sink (cmd : ExecCmd) : Stream → Sink
  | .stdout => cmd.Stdout
  | .stderr => cmd.Stderr

/-- The outcome of the closure `wait` in the invocation: `wait` is applied to
the started command and to the error of `cmd.Start()` (run.go:86-92). -/
def Cmd.waitStep (c : Cmd) (args : List String) (W : World) : WaitStep :=
  c.wait args W ((c.command args).Start W).1 ((c.command args).Start W).2

/-! ## Example configurations and environments -/

/-- A child that prints `hello` on stdout and a warning on stderr, then exits
with status zero. -/
def Child.hello : Child :=
  { writes := [(.stdout, "hello\n"), (.stderr, "warn\n")], natural := some (.exited 0),
    overrun := false, pipesClose := true }

/-- A child that writes two chunks to stderr and exits with status zero. -/
def Child.noisy : Child :=
  { writes := [(.stderr, "a"), (.stderr, "b")], natural := some (.exited 0), overrun := false, pipesClose := true }

/-- A child that writes one chunk to stdout and exits with status zero. -/
def Child.quiet : Child :=
  { writes := [(.stdout, "out\n")], natural := some (.exited 0), overrun := false, pipesClose := true }

/-- A child that writes a chunk to stderr, then the same chunk to stdout as
`Child.quiet`, and exits with status zero. -/
def Child.chatty : Child :=
  { writes := [(.stderr, "warn\n"), (.stdout, "out\n")], natural := some (.exited 0),
    overrun := false, pipesClose := true }

/-- A child that exits with status one without writing anything. -/
def Child.failing : Child :=
  { writes := [], natural := some (.exited 1), overrun := false, pipesClose := true }

/-- A child that never ends on its own. -/
def Child.daemon : Child :=
  { writes := [(.stdout, "listening\n")], natural := none, overrun := true,
    pipesClose := true }

/-- A child that never ends on its own and has started a descendant that keeps
the output pipes open: killing the child does not bring the pipes to end of
file. -/
def Child.orphaning : Child :=
  { writes := [(.stdout, "listening\n")], natural := none, overrun := true,
    pipesClose := false }

/-- Every command starts `child`; every writer reports one byte more than it is
given and no error. -/
def World.overWriter (child : Child) : World :=
  { spawn := fun _ _ _ => .ok child,
    write := fun _ _ p => ⟨len p + 1, none⟩ }

/-- Every command starts `child`; every writer accepts every chunk. -/
def World.accepting (child : Child) : World :=
  { spawn := fun _ _ _ => .ok child,
    write := fun _ _ p => ⟨len p, none⟩ }

/-- Every command starts `child`; writer 1 returns an error on every `Write`. -/
def World.closedWriter (child : Child) : World :=
  { spawn := fun _ _ _ => .ok child,
    write := fun w _ p => if w = 1 then ⟨0, some (.write "closed")⟩ else ⟨len p, none⟩ }

/-- Every command starts `child`; every writer writes one byte less than it is
given and reports no error. -/
def World.shortWriter (child : Child) : World :=
  { spawn := fun _ _ _ => .ok child,
    write := fun _ _ p => ⟨len p - 1, none⟩ }

/-- Every command starts `child`; every writer accepts the first chunk it is
handed and returns an error on all later ones. -/
def World.onceWriter (child : Child) : World :=
  { spawn := fun _ _ _ => .ok child,
    write := fun _ h p => if h = [] then ⟨len p, none⟩ else ⟨0, some (.write "full")⟩ }

/-- No command can be started. -/
def World.notFound : World :=
  { spawn := fun _ _ _ => .error (.start "executable file not found"),
    write := fun _ _ p => ⟨len p, none⟩ }

/-- Foreground, both captures on, primary writer 1, no error writer, no
timeout. -/
def Cmd.capturing : Cmd :=
  { Command := "echo", Directory := "", Foreground := true, timeout := 0,
    OutPlaceholder := "out", ErrPlaceholder := "err", stdWriter := 1, errWriter := none }

/-- Background, no capture, no timeout. -/
def Cmd.daemonized : Cmd :=
  { Command := "serve", Directory := "", Foreground := false, timeout := 0,
    OutPlaceholder := "", ErrPlaceholder := "", stdWriter := 1, errWriter := none }

/-- Foreground, no capture, primary writer 1, no error writer, no timeout. -/
def Cmd.plain : Cmd :=
  { Command := "echo", Directory := "", Foreground := true, timeout := 0,
    OutPlaceholder := "", ErrPlaceholder := "", stdWriter := 1, errWriter := none }

/-- Background, no capture, a timeout of one second. -/
def Cmd.detached : Cmd :=
  { Command := "echo", Directory := "", Foreground := false, timeout := 1000000000,
    OutPlaceholder := "", ErrPlaceholder := "", stdWriter := 1, errWriter := none }

/-! ## Writers and buffers -/


theorem len_eq_zero_iff (s : String) : len s = 0 ↔ s = "" := by
  constructor
  · intro h
    cases s with
    | mk data =>
      cases data with
      | nil => rfl
      | cons a l =>
        exfalso
        simp only [len, String.utf8ByteSize, String.utf8ByteSize.go] at h
        have := Char.utf8Size_pos a
        omega
  · intro h
    subst h
    rfl

theorem Target_write_buffer (W : World) (o : Stream) (p : String) (st : IOState) (t : Target)
    (s : Stream) (h : t ≠ .builder s) : ((t.write W o p st).1).buffer s = st.buffer s := by
  cases t with
  | external w => rfl
  | builder s' =>
    cases s' <;> cases s <;> first | rfl | exact absurd rfl h

theorem Target_write_stopped (W : World) (o : Stream) (p : String) (st : IOState) (t : Target) :
    (t.write W o p st).1.outStopped = st.outStopped ∧
    (t.write W o p st).1.errStopped = st.errStopped ∧
    (t.write W o p st).1.copyErr = st.copyErr := by
  cases t with
  | external w => exact ⟨rfl, rfl, rfl⟩
  | builder s' => cases s' <;> exact ⟨rfl, rfl, rfl⟩

theorem multiWrite_buffer (W : World) (o : Stream) (p : String) (s : Stream) (ts : List Target)
    (h : Target.builder s ∉ ts) (st : IOState) :
    ((multiWrite W o p ts st).1).buffer s = st.buffer s := by
  induction ts generalizing st with
  | nil => rfl
  | cons t ts ih =>
    have ht : t ≠ .builder s := fun e => h (e ▸ List.mem_cons_self _ _)
    have hts : Target.builder s ∉ ts := fun e => h (List.mem_cons_of_mem _ e)
    have h1 := Target_write_buffer W o p st t s ht
    simp only [multiWrite]
    split
    · exact h1
    · split
      · exact h1
      · rw [ih hts, h1]

theorem multiWrite_stopped (W : World) (o : Stream) (p : String) (ts : List Target)
    (st : IOState) :
    (multiWrite W o p ts st).1.outStopped = st.outStopped ∧
    (multiWrite W o p ts st).1.errStopped = st.errStopped ∧
    (multiWrite W o p ts st).1.copyErr = st.copyErr := by
  induction ts generalizing st with
  | nil => exact ⟨rfl, rfl, rfl⟩
  | cons t ts ih =>
    have h1 := Target_write_stopped W o p st t
    simp only [multiWrite]
    split
    · exact h1
    · split
      · exact h1
      · obtain ⟨a, b, c⟩ := ih (t.write W o p st).1
        exact ⟨a.trans h1.1, b.trans h1.2.1, c.trans h1.2.2⟩

theorem Sink_write_buffer (W : World) (o : Stream) (p : String) (s : Stream) (k : Sink)
    (h : Target.builder s ∉ k.targets) (st : IOState) :
    ((k.write W o p st).1).buffer s = st.buffer s := by
  cases k with
  | direct t =>
    exact Target_write_buffer W o p st t s (fun e => h (by simp [Sink.targets, e]))
  | multi ts => exact multiWrite_buffer W o p s ts h st

theorem Sink_write_stopped (W : World) (o : Stream) (p : String) (k : Sink) (st : IOState) :
    (k.write W o p st).1.outStopped = st.outStopped ∧
    (k.write W o p st).1.errStopped = st.errStopped ∧
    (k.write W o p st).1.copyErr = st.copyErr := by
  cases k with
  | direct t => exact Target_write_stopped W o p st t
  | multi ts => exact multiWrite_stopped W o p ts st

theorem copyChunk_buffer (W : World) (stdout stderr : Sink) (s : Stream)
    (h1 : Target.builder s ∉ stdout.targets) (h2 : Target.builder s ∉ stderr.targets)
    (st : IOState) (ev : Stream × String) :
    ((copyChunk W stdout stderr st ev)).buffer s = st.buffer s := by
  obtain ⟨o, p⟩ := ev
  cases o with
  | stdout =>
    simp only [copyChunk]
    split
    · rfl
    · have := Sink_write_buffer W .stdout p s stdout h1 st
      split
      · exact this
      · cases s <;> exact this
  | stderr =>
    simp only [copyChunk]
    split
    · rfl
    · have := Sink_write_buffer W .stderr p s stderr h2 st
      split
      · exact this
      · cases s <;> exact this

theorem copyAll_buffer (W : World) (stdout stderr : Sink) (s : Stream)
    (h1 : Target.builder s ∉ stdout.targets) (h2 : Target.builder s ∉ stderr.targets)
    (ws : List (Stream × String)) (st : IOState) :
    ((copyAll W stdout stderr st ws)).buffer s = st.buffer s := by
  induction ws generalizing st with
  | nil => rfl
  | cons ev ws ih =>
    simp only [copyAll, List.foldl_cons]
    exact (ih _).trans (copyChunk_buffer W stdout stderr s h1 h2 st ev)


/-! ## The command built by `run` -/

theorem command_Stdout (c : Cmd) (args : List String) :
    (c.command args).Stdout =
      if len c.OutPlaceholder > 0 then .multi [.external c.stdWriter, .builder .stdout]
      else .direct (.external c.stdWriter) := by
  simp only [Cmd.command, MultiWriter, List.flatMap_cons, List.flatMap_nil, Sink.targets,
    List.append_nil, List.singleton_append]

theorem command_Stderr (c : Cmd) (args : List String) :
    (c.command args).Stderr =
      if len c.ErrPlaceholder > 0 then
        .multi [.external (c.errWriter.getD c.stdWriter), .builder .stderr]
      else .direct (.external (c.errWriter.getD c.stdWriter)) := by
  cases h : c.errWriter <;>
  simp only [Cmd.command, MultiWriter, List.flatMap_cons, List.flatMap_nil, Sink.targets,
    List.append_nil, List.singleton_append, h, Option.getD]

theorem Start_fields (W : World) (cmd : ExecCmd) :
    (cmd.Start W).1.Stdout = cmd.Stdout ∧ (cmd.Start W).1.Stderr = cmd.Stderr ∧
    (cmd.Start W).1.deadline = cmd.deadline := by
  unfold ExecCmd.Start
  split <;> exact ⟨rfl, rfl, rfl⟩

/-- `cmd.Start()` returns an error exactly when it leaves `cmd.Process` nil. -/
theorem Start_cases (W : World) (cmd : ExecCmd) (h : cmd.Process = none) :
    (∃ child, (cmd.Start W).1.Process = some child ∧ (cmd.Start W).2 = none) ∨
    (∃ e, (cmd.Start W).1.Process = none ∧ (cmd.Start W).2 = some e) := by
  unfold ExecCmd.Start
  split
  · exact Or.inl ⟨_, rfl, rfl⟩
  · exact Or.inr ⟨_, h, rfl⟩

theorem command_Process (c : Cmd) (args : List String) : (c.command args).Process = none := rfl

/-! ## The closure `wait` and the values returned -/

theorem wait_result_started (c : Cmd) (args : List String) (W : World) (cmd : ExecCmd)
    (err : Option GoError) (child : Child) (h : cmd.Process = some child) :
    (c.wait args W cmd err).result =
      (cmd.Wait W).map (fun e => ⟨(cmd.output W).outBuffer, (cmd.output W).errBuffer, e⟩) := by
  unfold Cmd.wait
  simp only [h]
  cases hw : cmd.Wait W with
  | none => rfl
  | some e =>
    simp only [Option.map_some']
    split <;> simp_all

theorem wait_result_not_started (c : Cmd) (args : List String) (W : World) (cmd : ExecCmd)
    (err : Option GoError) (h : cmd.Process = none) :
    (c.wait args W cmd err).result = some ⟨"", "", err⟩ := by
  unfold Cmd.wait
  simp only [h, ExecCmd.output]
  split <;> simp_all [IOState.init]

theorem wait_io (c : Cmd) (args : List String) (W : World) (cmd : ExecCmd)
    (err : Option GoError) : (c.wait args W cmd err).io = cmd.output W := by
  unfold Cmd.wait
  simp only
  split
  · rfl
  · split <;> rfl

theorem run_result_foreground (c : Cmd) (args : List String) (W : World)
    (h : c.Foreground = true) :
    (c.run args W).result =
      (c.wait args W ((c.command args).Start W).1 ((c.command args).Start W).2).result := by
  simp [Cmd.run, h]

theorem run_result_background (c : Cmd) (args : List String) (W : World)
    (h : c.Foreground = false) :
    (c.run args W).result = some ⟨"", "", ((c.command args).Start W).2⟩ := by
  simp [Cmd.run, h]

theorem run_io (c : Cmd) (args : List String) (W : World) :
    (c.run args W).io = ((c.command args).Start W).1.output W := by
  unfold Cmd.run
  simp only
  split <;> exact wait_io _ _ _ _ _

/-- The call of `run` fails to return exactly when it is a foreground call whose
`cmd.Wait()` never returns. -/
theorem run_result_none_iff (c : Cmd) (args : List String) (W : World) :
    (c.run args W).result = none ↔ (c.Foreground = true ∧ c.waitsForever args W = true) := by
  cases hf : c.Foreground with
  | false => simp [run_result_background c args W hf]
  | true =>
    rw [run_result_foreground c args W hf]
    rcases Start_cases W (c.command args) rfl with ⟨child, hp, -⟩ | ⟨e, hp, -⟩
    · rw [wait_result_started c args W _ _ child hp]
      simp [Cmd.waitsForever, hp]
    · rw [wait_result_not_started c args W _ _ hp]
      simp [Cmd.waitsForever, hp]

theorem output_buffer_of_not_target (W : World) (cmd : ExecCmd) (s : Stream)
    (h1 : Target.builder s ∉ cmd.Stdout.targets) (h2 : Target.builder s ∉ cmd.Stderr.targets) :
    (cmd.output W).buffer s = "" := by
  unfold ExecCmd.output ExecCmd.outputAfter
  split
  · rw [copyAll_buffer W _ _ s h1 h2]
    cases s <;> rfl
  · cases s <;> rfl

theorem command_no_builder (c : Cmd) (args : List String) :
    (c.OutPlaceholder = "" →
      Target.builder .stdout ∉ (c.command args).Stdout.targets ∧
      Target.builder .stdout ∉ (c.command args).Stderr.targets) ∧
    (c.ErrPlaceholder = "" →
      Target.builder .stderr ∉ (c.command args).Stdout.targets ∧
      Target.builder .stderr ∉ (c.command args).Stderr.targets) := by
  rw [command_Stdout, command_Stderr]
  constructor
  · intro h
    have h0 : len c.OutPlaceholder = 0 := (len_eq_zero_iff _).2 h
    simp only [h0, gt_iff_lt, lt_self_iff_false, if_false]
    constructor
    · simp [Sink.targets]
    · split <;> simp [Sink.targets]
  · intro h
    have h0 : len c.ErrPlaceholder = 0 := (len_eq_zero_iff _).2 h
    simp only [h0, gt_iff_lt, lt_self_iff_false, if_false]
    constructor
    · split <;> simp [Sink.targets]
    · simp [Sink.targets]

/-- The buffer of a stream whose placeholder is empty is never written. -/
theorem run_io_buffer_empty (c : Cmd) (args : List String) (W : World) :
    (c.OutPlaceholder = "" → (c.run args W).io.outBuffer = "") ∧
    (c.ErrPlaceholder = "" → (c.run args W).io.errBuffer = "") := by
  rw [run_io]
  obtain ⟨h1, h2, -⟩ := Start_fields W (c.command args)
  constructor
  · intro h
    have := (command_no_builder c args).1 h
    exact output_buffer_of_not_target W _ .stdout (h1 ▸ this.1) (h2 ▸ this.2)
  · intro h
    have := (command_no_builder c args).2 h
    exact output_buffer_of_not_target W _ .stderr (h1 ▸ this.1) (h2 ▸ this.2)

/-- In a foreground call that returns, the strings returned are the two buffers
and the error is the one `wait` ends with; a background call returns empty
strings. -/
theorem run_result_strings (c : Cmd) (args : List String) (W : World) (r : Returned)
    (h : (c.run args W).result = some r) :
    (c.Foreground = true → r.out = (c.run args W).io.outBuffer ∧
      r.err = (c.run args W).io.errBuffer) ∧
    (c.Foreground = false → r.out = "" ∧ r.err = "") := by
  constructor
  · intro hf
    rw [run_io]
    rw [run_result_foreground c args W hf] at h
    rcases Start_cases W (c.command args) rfl with ⟨child, hp, -⟩ | ⟨e, hp, -⟩
    · rw [wait_result_started c args W _ _ child hp] at h
      cases hw : ((c.command args).Start W).1.Wait W with
      | none => simp [hw] at h
      | some e =>
        simp only [hw, Option.map_some', Option.some.injEq] at h
        subst h
        exact ⟨rfl, rfl⟩
    · rw [wait_result_not_started c args W _ _ hp] at h
      simp only [Option.some.injEq] at h
      subst h
      simp [ExecCmd.output, hp, IOState.init]
  · intro hf
    rw [run_result_background c args W hf] at h
    simp only [Option.some.injEq] at h
    subst h
    exact ⟨rfl, rfl⟩

/-- C1. Whatever the configuration, the arguments and the behaviour of the
operating system and of the writers (foreground or background; start failure,
clean exit, failing exit): `run` returns unless it is a foreground call whose
`cmd.Wait()` never returns, and in the values it returns the first string is
empty when `OutPlaceholder` is empty and the second string is empty when
`ErrPlaceholder` is empty. -/
theorem run_capture_disabled_empty (c : Cmd) (args : List String) (W : World) :
    ((c.run args W).result = none ↔ (c.Foreground = true ∧ c.waitsForever args W = true)) ∧
    ∀ r, (c.run args W).result = some r →
      (c.OutPlaceholder = "" → r.out = "") ∧ (c.ErrPlaceholder = "" → r.err = "") := by
  refine ⟨run_result_none_iff c args W, fun r h => ?_⟩
  have hs := run_result_strings c args W r h
  have hb := run_io_buffer_empty c args W
  cases hf : c.Foreground with
  | true =>
    obtain ⟨ho, he⟩ := hs.1 hf
    exact ⟨fun h1 => ho.trans (hb.1 h1), fun h2 => he.trans (hb.2 h2)⟩
  | false =>
    obtain ⟨ho, he⟩ := hs.2 hf
    exact ⟨fun _ => ho, fun _ => he⟩

/-- Witness of `run_capture_disabled_empty`: a foreground call without capture
returns empty strings although the child writes to both streams. -/
theorem run_capture_disabled_empty_witness :
    (Cmd.plain.run [] (World.accepting Child.hello)).result = some ⟨"", "", none⟩ ∧
    Cmd.plain.OutPlaceholder = "" ∧
    Returned.out ⟨"", "", none⟩ = "" :=
  ⟨by decide, rfl,
    ((run_capture_disabled_empty Cmd.plain [] (World.accepting Child.hello)).2
      ⟨"", "", none⟩ (by decide)).1 rfl⟩

/-! ## Capture: the buffer behind a writer -/

theorem join_snoc (l : List String) (p : String) : String.join (l ++ [p]) = String.join l ++ p := by
  simp [String.join, List.foldl_append]

theorem Target_write_calls (W : World) (o : Stream) (p : String) (st : IOState) (t : Target) :
    (t.write W o p st).1.calls =
      st.calls ++ (match t with | .external w => [⟨w, o, p⟩] | .builder _ => []) := by
  cases t with
  | external w => rfl
  | builder s => cases s <;> simp [Target.write]

/-- A `Write` on a sink only adds calls made for the stream it is written for. -/
theorem multiWrite_calls (W : World) (o : Stream) (p : String) (ts : List Target)
    (st : IOState) :
    ∃ l : List WriteCall, (multiWrite W o p ts st).1.calls = st.calls ++ l ∧
      ∀ x ∈ l, x.origin = o := by
  induction ts generalizing st with
  | nil => exact ⟨[], by simp [multiWrite], by simp⟩
  | cons t ts ih =>
    have h1 : ∃ l : List WriteCall, (t.write W o p st).1.calls = st.calls ++ l ∧
        ∀ x ∈ l, x.origin = o := by
      refine ⟨_, Target_write_calls W o p st t, ?_⟩
      cases t <;> simp
    simp only [multiWrite]
    split
    · exact h1
    · split
      · exact h1
      · obtain ⟨l1, e1, q1⟩ := h1
        obtain ⟨l2, e2, q2⟩ := ih (t.write W o p st).1
        refine ⟨l1 ++ l2, by rw [e2, e1, List.append_assoc], ?_⟩
        intro x hx
        rcases List.mem_append.1 hx with h | h
        · exact q1 x h
        · exact q2 x h

theorem Sink_write_calls (W : World) (o : Stream) (p : String) (k : Sink) (st : IOState) :
    ∃ l : List WriteCall, (k.write W o p st).1.calls = st.calls ++ l ∧
      ∀ x ∈ l, x.origin = o := by
  cases k with
  | direct t =>
    refine ⟨_, Target_write_calls W o p st t, ?_⟩
    cases t <;> simp
  | multi ts => exact multiWrite_calls W o p ts st

theorem receivedFrom_append_other (st : IOState) (l : List WriteCall) (w : Nat) (s o : Stream)
    (hl : ∀ x ∈ l, x.origin = o) (hne : o ≠ s) (calls : List WriteCall)
    (hc : calls = st.calls ++ l) :
    ((calls.filter (fun c => c.writer = w ∧ c.origin = s)).map WriteCall.chunk) =
      st.receivedFrom w s := by
  subst hc
  rw [List.filter_append, List.map_append]
  have : l.filter (fun c => decide (c.writer = w ∧ c.origin = s)) = [] := by
    rw [List.filter_eq_nil_iff]
    intro x hx
    have := hl x hx
    simp only [decide_eq_true_eq, not_and]
    intro _ h
    exact hne (this.symm.trans h)
  rw [this]
  simp [IOState.receivedFrom]

theorem copyChunk_stopped_self (W : World) (stdout stderr : Sink) (st : IOState) (s : Stream)
    (p : String) (h : st.stopped s = true) : copyChunk W stdout stderr st (s, p) = st := by
  cases s <;> simp only [IOState.stopped] at h <;> simp [copyChunk, h]


theorem receivedFrom_snoc (st : IOState) (w : Nat) (s : Stream) (p : String) (calls : List WriteCall)
    (hc : calls = st.calls ++ [⟨w, s, p⟩]) :
    ((calls.filter (fun c => c.writer = w ∧ c.origin = s)).map WriteCall.chunk) =
      st.receivedFrom w s ++ [p] := by
  subst hc
  simp [IOState.receivedFrom, List.filter_append]

/-- One `Write` on the multi-writer of a captured stream: the external writer is
called with the chunk; the buffer receives it exactly when that call returned
`len(p), nil`, and exactly then the copy goes on. -/
theorem capture_write (W : World) (w : Nat) (s : Stream) (p : String) (st : IOState) :
    let res := (Sink.multi [.external w, .builder s]).write W s p st
    res.1.calls = st.calls ++ [⟨w, s, p⟩] ∧
    ((copyError p res.2 = none ∧ res.1.buffer s = st.buffer s ++ p ∧
        W.write w (st.received w) p = ⟨len p, none⟩) ∨
     (copyError p res.2 ≠ none ∧ res.1.buffer s = st.buffer s ∧
        W.write w (st.received w) p ≠ ⟨len p, none⟩)) := by
  intro res
  cases hr : W.write w (st.received w) p with
  | mk n err =>
    cases err with
    | some e =>
      have : res = ({ st with calls := st.calls ++ [⟨w, s, p⟩] }, ⟨n, some e⟩) := by
        simp [res, Sink.write, multiWrite, Target.write, hr]
      rw [this]
      refine ⟨rfl, Or.inr ⟨by simp [copyError], by cases s <;> rfl, by simp⟩⟩
    | none =>
      by_cases hn : n = len p
      · subst hn
        cases s with
        | stdout =>
          have : res = ({ st with calls := st.calls ++ [⟨w, .stdout, p⟩],
                                  outBuffer := st.outBuffer ++ p }, ⟨len p, none⟩) := by
            simp [res, Sink.write, multiWrite, Target.write, hr]
          rw [this]
          exact ⟨rfl, Or.inl ⟨by simp [copyError], rfl, rfl⟩⟩
        | stderr =>
          have : res = ({ st with calls := st.calls ++ [⟨w, .stderr, p⟩],
                                  errBuffer := st.errBuffer ++ p }, ⟨len p, none⟩) := by
            simp [res, Sink.write, multiWrite, Target.write, hr]
          rw [this]
          exact ⟨rfl, Or.inl ⟨by simp [copyError], rfl, rfl⟩⟩
      · have : res = ({ st with calls := st.calls ++ [⟨w, s, p⟩] }, ⟨n, some .shortWrite⟩) := by
          simp [res, Sink.write, multiWrite, Target.write, hr, hn]
        rw [this]
        refine ⟨rfl, Or.inr ⟨by simp [copyError], by cases s <;> rfl, ?_⟩⟩
        intro h
        exact hn (congrArg WriteResult.n h)

/-- A chunk of the other stream leaves what the writer of stream `s` received
from `s` and the buffer of `s` as they are; it can end the copy of `s` only
through a shared pipe. -/
theorem copyChunk_other (W : World) (stdout stderr : Sink) (w : Nat) (s : Stream)
    (st : IOState) (ev : Stream × String) (hne : ev.1 ≠ s) :
    (copyChunk W stdout stderr st ev).receivedFrom w s = st.receivedFrom w s ∧
    ((copyChunk W stdout stderr st ev).stopped s = false → st.stopped s = false) ∧
    (sharedPipe stdout stderr = false →
      (copyChunk W stdout stderr st ev).stopped s = st.stopped s) ∧
    (Target.builder s ∉ (match s with | .stdout => stderr | .stderr => stdout).targets →
      (copyChunk W stdout stderr st ev).buffer s = st.buffer s) := by
  obtain ⟨o, p⟩ := ev
  cases o with
  | stdout =>
    cases s with
    | stdout => exact absurd rfl hne
    | stderr =>
      simp only [copyChunk]
      split
      · exact ⟨rfl, id, fun _ => rfl, fun _ => rfl⟩
      · obtain ⟨l, hl, ho⟩ := Sink_write_calls W .stdout p stdout st
        obtain ⟨f1, f2, f3⟩ := Sink_write_stopped W .stdout p stdout st
        have hr := receivedFrom_append_other st l w .stderr .stdout ho (by decide) _ hl
        split
        · refine ⟨hr, fun h => ?_, fun _ => ?_, fun hb => ?_⟩
          · simpa [IOState.stopped, f2] using h
          · simp [IOState.stopped, f2]
          · exact Sink_write_buffer W .stdout p .stderr stdout hb st
        · refine ⟨hr, fun h => ?_, fun hsh => ?_, fun hb => ?_⟩
          · simp only [IOState.stopped, f2, Bool.or_eq_false_iff] at h
            exact h.1
          · simp [IOState.stopped, f2, hsh]
          · exact Sink_write_buffer W .stdout p .stderr stdout hb st
  | stderr =>
    cases s with
    | stderr => exact absurd rfl hne
    | stdout =>
      simp only [copyChunk]
      split
      · exact ⟨rfl, id, fun _ => rfl, fun _ => rfl⟩
      · obtain ⟨l, hl, ho⟩ := Sink_write_calls W .stderr p stderr st
        obtain ⟨f1, f2, f3⟩ := Sink_write_stopped W .stderr p stderr st
        have hr := receivedFrom_append_other st l w .stdout .stderr ho (by decide) _ hl
        split
        · refine ⟨hr, fun h => ?_, fun _ => ?_, fun hb => ?_⟩
          · simpa [IOState.stopped, f1] using h
          · simp [IOState.stopped, f1]
          · exact Sink_write_buffer W .stderr p .stdout stderr hb st
        · refine ⟨hr, fun h => ?_, fun hsh => ?_, fun hb => ?_⟩
          · simp only [IOState.stopped, f1, Bool.or_eq_false_iff] at h
            exact h.1
          · simp [IOState.stopped, f1, hsh]
          · exact Sink_write_buffer W .stderr p .stdout stderr hb st

/-- A chunk of a captured stream whose copy is still running: the writer is
handed the chunk; if its `Write` returns `len(p), nil` the chunk is appended to
the buffer and the copy goes on, otherwise the buffer is left as it is and the
copy of the stream ends. -/
theorem copyChunk_own_capture (W : World) (stdout stderr : Sink) (w : Nat) (s : Stream)
    (hs : (match s with | .stdout => stdout | .stderr => stderr) =
      .multi [.external w, .builder s])
    (st : IOState) (p : String) (hrun : st.stopped s = false) :
    (copyChunk W stdout stderr st (s, p)).receivedFrom w s = st.receivedFrom w s ++ [p] ∧
    (((copyChunk W stdout stderr st (s, p)).stopped s = false ∧
        (copyChunk W stdout stderr st (s, p)).buffer s = st.buffer s ++ p ∧
        W.write w (st.received w) p = ⟨len p, none⟩) ∨
     ((copyChunk W stdout stderr st (s, p)).stopped s = true ∧
        (copyChunk W stdout stderr st (s, p)).buffer s = st.buffer s ∧
        W.write w (st.received w) p ≠ ⟨len p, none⟩)) := by
  have hw := capture_write W w s p st
  obtain ⟨f1, f2, f3⟩ := Sink_write_stopped W s p (.multi [.external w, .builder s]) st
  cases s with
  | stdout =>
    simp only at hs
    subst hs
    simp only [IOState.stopped] at hrun
    simp only [copyChunk, hrun, Bool.false_eq_true, if_false]
    obtain ⟨hc, hcase⟩ := hw
    rcases hcase with ⟨h1, h2, h3⟩ | ⟨h1, h2, h3⟩
    · simp only [h1]
      exact ⟨receivedFrom_snoc st w .stdout p _ hc, Or.inl ⟨by simp [IOState.stopped, f1, hrun], h2, h3⟩⟩
    · cases hce : copyError p ((Sink.multi [.external w, .builder .stdout]).write W .stdout p st).2 with
      | none => exact absurd hce h1
      | some e =>
        simp only
        exact ⟨receivedFrom_snoc st w .stdout p _ hc, Or.inr ⟨rfl, h2, h3⟩⟩
  | stderr =>
    simp only at hs
    subst hs
    simp only [IOState.stopped] at hrun
    simp only [copyChunk, hrun, Bool.false_eq_true, if_false]
    obtain ⟨hc, hcase⟩ := hw
    rcases hcase with ⟨h1, h2, h3⟩ | ⟨h1, h2, h3⟩
    · simp only [h1]
      exact ⟨receivedFrom_snoc st w .stderr p _ hc, Or.inl ⟨by simp [IOState.stopped, f2, hrun], h2, h3⟩⟩
    · cases hce : copyError p ((Sink.multi [.external w, .builder .stderr]).write W .stderr p st).2 with
      | none => exact absurd hce h1
      | some e =>
        simp only
        exact ⟨receivedFrom_snoc st w .stderr p _ hc, Or.inr ⟨rfl, h2, h3⟩⟩

/-- A chunk of a stream bound directly to an external writer, copy still
running: the writer is handed the chunk, and the copy goes on exactly when its
`Write` returns `len(p), nil`. -/
theorem copyChunk_own_direct (W : World) (stdout stderr : Sink) (w : Nat) (s : Stream)
    (hs : (match s with | .stdout => stdout | .stderr => stderr) = .direct (.external w))
    (st : IOState) (p : String) (hrun : st.stopped s = false) :
    (copyChunk W stdout stderr st (s, p)).receivedFrom w s = st.receivedFrom w s ++ [p] ∧
    ((copyChunk W stdout stderr st (s, p)).stopped s = false ↔
      W.write w (st.received w) p = ⟨len p, none⟩) := by
  have hcopy : ∀ r : WriteResult, copyError p r = none ↔ r = ⟨len p, none⟩ := by
    intro r
    obtain ⟨n, err⟩ := r
    cases err with
    | some e => simp [copyError]
    | none =>
      by_cases hn : n = len p
      · subst hn
        simp [copyError]
      · have : (⟨n, none⟩ : WriteResult) ≠ ⟨len p, none⟩ := fun h => hn (congrArg WriteResult.n h)
        simp only [copyError, this, iff_false]
        split <;> simp [hn]
  cases s with
  | stdout =>
    simp only at hs
    subst hs
    simp only [IOState.stopped] at hrun
    simp only [copyChunk, hrun, Bool.false_eq_true, if_false, Sink.write, Target.write]
    cases hce : copyError p (W.write w (st.received w) p) with
    | none =>
      simp only
      exact ⟨receivedFrom_snoc st w .stdout p _ rfl, by simp [IOState.stopped, hrun, (hcopy _).1 hce]⟩
    | some e =>
      simp only
      refine ⟨receivedFrom_snoc st w .stdout p _ rfl, ?_⟩
      simp only [IOState.stopped, Bool.true_eq_false, false_iff]
      intro h
      rw [(hcopy _).2 h] at hce
      exact absurd hce (by simp)
  | stderr =>
    simp only at hs
    subst hs
    simp only [IOState.stopped] at hrun
    simp only [copyChunk, hrun, Bool.false_eq_true, if_false, Sink.write, Target.write]
    cases hce : copyError p (W.write w (st.received w) p) with
    | none =>
      simp only
      exact ⟨receivedFrom_snoc st w .stderr p _ rfl, by simp [IOState.stopped, hrun, (hcopy _).1 hce]⟩
    | some e =>
      simp only
      refine ⟨receivedFrom_snoc st w .stderr p _ rfl, ?_⟩
      simp only [IOState.stopped, Bool.true_eq_false, false_iff]
      intro h
      rw [(hcopy _).2 h] at hce
      exact absurd hce (by simp)

theorem chunksOf_snoc (s : Stream) (seen : List (Stream × String)) (ev : Stream × String) :
    chunksOf s (seen ++ [ev]) = if ev.1 = s then chunksOf s seen ++ [ev.2] else chunksOf s seen := by
  unfold chunksOf
  by_cases h : ev.1 = s <;> simp [List.filter_append, h]

/-- What the writer in front of stream `s` has received from `s` is a prefix of
what the child wrote to `s`, and all of it while the copy of `s` is running. -/
theorem copyAll_received (W : World) (stdout stderr : Sink) (w : Nat) (s : Stream)
    (hs : (match s with | .stdout => stdout | .stderr => stderr) = .direct (.external w) ∨
      (match s with | .stdout => stdout | .stderr => stderr) = .multi [.external w, .builder s])
    (ws seen : List (Stream × String)) (st : IOState)
    (h1 : st.receivedFrom w s <+: chunksOf s seen)
    (h2 : st.stopped s = false → st.receivedFrom w s = chunksOf s seen) :
    (copyAll W stdout stderr st ws).receivedFrom w s <+: chunksOf s (seen ++ ws) ∧
    ((copyAll W stdout stderr st ws).stopped s = false →
      (copyAll W stdout stderr st ws).receivedFrom w s = chunksOf s (seen ++ ws)) := by
  induction ws generalizing seen st with
  | nil => simpa [copyAll] using ⟨h1, h2⟩
  | cons ev ws ih =>
    have key : (copyChunk W stdout stderr st ev).receivedFrom w s <+: chunksOf s (seen ++ [ev]) ∧
        ((copyChunk W stdout stderr st ev).stopped s = false →
          (copyChunk W stdout stderr st ev).receivedFrom w s = chunksOf s (seen ++ [ev])) := by
      rw [chunksOf_snoc]
      by_cases hev : ev.1 = s
      · obtain ⟨o, p⟩ := ev
        simp only at hev
        subst hev
        simp only [if_true]
        cases hst : st.stopped o with
        | true =>
          rw [copyChunk_stopped_self W stdout stderr st o p hst]
          exact ⟨h1.trans (List.prefix_append _ _), fun h => absurd (hst.symm.trans h) (by simp)⟩
        | false =>
          have hr : (copyChunk W stdout stderr st (o, p)).receivedFrom w o =
              st.receivedFrom w o ++ [p] := by
            rcases hs with hs | hs
            · exact (copyChunk_own_direct W stdout stderr w o hs st p hst).1
            · exact (copyChunk_own_capture W stdout stderr w o hs st p hst).1
          rw [hr, h2 hst]
          exact ⟨List.prefix_refl _, fun _ => rfl⟩
      · simp only [hev, if_false]
        obtain ⟨e1, e2, -, -⟩ := copyChunk_other W stdout stderr w s st ev hev
        rw [e1]
        exact ⟨h1, fun h => h2 (e2 h)⟩
    have := ih (seen ++ [ev]) (copyChunk W stdout stderr st ev) key.1 key.2
    simpa [copyAll, List.append_assoc] using this

/-- The buffer of a captured stream holds the chunks its writer accepted: all
chunks the writer was handed, less the last one if the copy has ended. -/
theorem copyAll_capture (W : World) (stdout stderr : Sink) (w : Nat) (s : Stream)
    (hs : (match s with | .stdout => stdout | .stderr => stderr) =
      .multi [.external w, .builder s])
    (ho : Target.builder s ∉ (match s with | .stdout => stderr | .stderr => stdout).targets)
    (ws : List (Stream × String)) (st : IOState)
    (hinv : st.buffer s = String.join (if st.stopped s then (st.receivedFrom w s).dropLast
      else st.receivedFrom w s)) :
    (copyAll W stdout stderr st ws).buffer s =
      String.join (if (copyAll W stdout stderr st ws).stopped s
        then ((copyAll W stdout stderr st ws).receivedFrom w s).dropLast
        else (copyAll W stdout stderr st ws).receivedFrom w s) := by
  have hsh : sharedPipe stdout stderr = false := by
    cases s <;> simp only at hs <;> subst hs <;> simp [sharedPipe]
  induction ws generalizing st with
  | nil => simpa [copyAll] using hinv
  | cons ev ws ih =>
    simp only [copyAll, List.foldl_cons]
    apply ih
    by_cases hev : ev.1 = s
    · obtain ⟨o, p⟩ := ev
      simp only at hev
      subst hev
      cases hst : st.stopped o with
      | true =>
        rw [copyChunk_stopped_self W stdout stderr st o p hst]
        simpa [hst] using hinv
      | false =>
        obtain ⟨hr, hcase⟩ := copyChunk_own_capture W stdout stderr w o hs st p hst
        simp only [hst, Bool.false_eq_true, if_false] at hinv
        rcases hcase with ⟨c1, c2, -⟩ | ⟨c1, c2, -⟩
        · simp only [c1, c2, hr, Bool.false_eq_true, if_false, join_snoc, hinv]
        · simp only [c1, c2, hr, if_true, List.dropLast_concat, hinv]
    · obtain ⟨e1, -, e3, e4⟩ := copyChunk_other W stdout stderr w s st ev hev
      rw [e1, e3 hsh, e4 ho]
      exact hinv

/-- With a writer that accepts every chunk, the copy of a captured stream never
ends with an error. -/
theorem copyAll_running_capture (W : World) (stdout stderr : Sink) (w : Nat) (s : Stream)
    (hs : (match s with | .stdout => stdout | .stderr => stderr) =
      .multi [.external w, .builder s])
    (hw : W.accepts w) (ws : List (Stream × String)) (st : IOState)
    (hrun : st.stopped s = false) :
    (copyAll W stdout stderr st ws).stopped s = false := by
  have hsh : sharedPipe stdout stderr = false := by
    cases s <;> simp only at hs <;> subst hs <;> simp [sharedPipe]
  induction ws generalizing st with
  | nil => simpa [copyAll] using hrun
  | cons ev ws ih =>
    simp only [copyAll, List.foldl_cons]
    apply ih
    by_cases hev : ev.1 = s
    · obtain ⟨o, p⟩ := ev
      simp only at hev
      subst hev
      rcases (copyChunk_own_capture W stdout stderr w o hs st p hrun).2 with ⟨c1, -, -⟩ | ⟨-, -, c3⟩
      · exact c1
      · exact absurd (hw _ _) c3
    · rw [(copyChunk_other W stdout stderr w s st ev hev).2.2.1 hsh]
      exact hrun

theorem Target_write_accepts (W : World) (o : Stream) (p : String) (st : IOState) (t : Target)
    (h : ∀ w, t = .external w → W.accepts w) : (t.write W o p st).2 = ⟨len p, none⟩ := by
  cases t with
  | external w => exact h w rfl _ _
  | builder s => cases s <;> rfl

theorem multiWrite_accepts (W : World) (o : Stream) (p : String) (ts : List Target)
    (h : ∀ t ∈ ts, ∀ w, t = .external w → W.accepts w) (st : IOState) :
    (multiWrite W o p ts st).2 = ⟨len p, none⟩ := by
  induction ts generalizing st with
  | nil => rfl
  | cons t ts ih =>
    have h1 := Target_write_accepts W o p st t (h t (List.mem_cons_self _ _))
    simp only [multiWrite, h1, ne_eq, not_true_eq_false, if_false]
    exact ih (fun t' ht' => h t' (List.mem_cons_of_mem _ ht')) _

theorem Sink_write_accepts (W : World) (o : Stream) (p : String) (k : Sink)
    (h : ∀ t ∈ k.targets, ∀ w, t = .external w → W.accepts w) (st : IOState) :
    copyError p (k.write W o p st).2 = none := by
  have : (k.write W o p st).2 = ⟨len p, none⟩ := by
    cases k with
    | direct t => exact Target_write_accepts W o p st t (h t (by simp [Sink.targets]))
    | multi ts => exact multiWrite_accepts W o p ts h st
  rw [this]
  simp [copyError]

/-- When every external writer behind `cmd.Stdout` and `cmd.Stderr` accepts
every chunk, no copy ever ends with an error. -/
theorem copyAll_no_failure (W : World) (stdout stderr : Sink)
    (h1 : ∀ t ∈ stdout.targets, ∀ w, t = .external w → W.accepts w)
    (h2 : ∀ t ∈ stderr.targets, ∀ w, t = .external w → W.accepts w)
    (ws : List (Stream × String)) (st : IOState)
    (ha : st.outStopped = false) (hb : st.errStopped = false) (hc : st.copyErr = none) :
    (copyAll W stdout stderr st ws).outStopped = false ∧
    (copyAll W stdout stderr st ws).errStopped = false ∧
    (copyAll W stdout stderr st ws).copyErr = none := by
  induction ws generalizing st with
  | nil => exact ⟨ha, hb, hc⟩
  | cons ev ws ih =>
    simp only [copyAll, List.foldl_cons]
    obtain ⟨o, p⟩ := ev
    cases o with
    | stdout =>
      obtain ⟨f1, f2, f3⟩ := Sink_write_stopped W .stdout p stdout st
      have hce := Sink_write_accepts W .stdout p stdout h1 st
      apply ih <;> simp only [copyChunk, ha, Bool.false_eq_true, if_false, hce]
      · exact f1.trans ha
      · exact f2.trans hb
      · exact f3.trans hc
    | stderr =>
      obtain ⟨f1, f2, f3⟩ := Sink_write_stopped W .stderr p stderr st
      have hce := Sink_write_accepts W .stderr p stderr h2 st
      apply ih <;> simp only [copyChunk, hb, Bool.false_eq_true, if_false, hce]
      · exact f1.trans ha
      · exact f2.trans hb
      · exact f3.trans hc

/-! ## C2: what a capture holds -/

theorem command_sink_capture (c : Cmd) (args : List String) (W : World) (s : Stream)
    (hcap : c.placeholder s ≠ "") :
    (((c.command args).Start W).1.sink s = .multi [.external (c.writer s), .builder s]) ∧
    Target.builder s ∉ (match s with
      | .stdout => ((c.command args).Start W).1.Stderr
      | .stderr => ((c.command args).Start W).1.Stdout).targets := by
  obtain ⟨h1, h2, -⟩ := Start_fields W (c.command args)
  have hpos : 0 < len (c.placeholder s) := by
    rcases Nat.eq_zero_or_pos (len (c.placeholder s)) with h | h
    · exact absurd ((len_eq_zero_iff _).1 h) hcap
    · exact h
  cases s with
  | stdout =>
    simp only [ExecCmd.sink, h1, h2, command_Stdout, command_Stderr, Cmd.placeholder,
      Cmd.writer] at hpos ⊢
    refine ⟨by simp [hpos], ?_⟩
    split <;> simp [Sink.targets]
  | stderr =>
    simp only [ExecCmd.sink, h1, h2, command_Stdout, command_Stderr, Cmd.placeholder,
      Cmd.writer] at hpos ⊢
    refine ⟨by simp [hpos], ?_⟩
    split <;> simp [Sink.targets]

theorem run_result_capture (c : Cmd) (args : List String) (W : World) (r : Returned)
    (s : Stream) (hfg : c.Foreground = true) (hret : (c.run args W).result = some r) :
    r.capture s = (c.run args W).io.buffer s := by
  obtain ⟨h1, h2⟩ := (run_result_strings c args W r hret).1 hfg
  cases s
  · exact h1
  · exact h2

/-- The buffer of a captured stream after the output of the child has been
copied: it holds the chunks its writer was handed, less the last one if the copy
ended with an error; what the writer was handed is a prefix of what the child
wrote, and all of it if the copy did not end with an error, which is the case if
the writer accepts every chunk. -/
theorem run_io_capture (c : Cmd) (args : List String) (W : World) (child : Child) (s : Stream)
    (hstart : ((c.command args).Start W).1.Process = some child)
    (hcap : c.placeholder s ≠ "") :
    (c.run args W).io.buffer s =
      String.join (if (c.run args W).io.stopped s
        then ((c.run args W).io.receivedFrom (c.writer s) s).dropLast
        else (c.run args W).io.receivedFrom (c.writer s) s) ∧
    (c.run args W).io.receivedFrom (c.writer s) s <+: chunksOf s child.writes ∧
    ((c.run args W).io.stopped s = false →
      (c.run args W).io.receivedFrom (c.writer s) s = chunksOf s child.writes) ∧
    (W.accepts (c.writer s) → (c.run args W).io.stopped s = false) := by
  rw [run_io]
  obtain ⟨hs, ho⟩ := command_sink_capture c args W s hcap
  have hs' : (match s with
      | .stdout => ((c.command args).Start W).1.Stdout
      | .stderr => ((c.command args).Start W).1.Stderr) =
      .multi [.external (c.writer s), .builder s] := by
    cases s <;> exact hs
  simp only [ExecCmd.output, ExecCmd.outputAfter, hstart]
  have hR := copyAll_received W _ _ (c.writer s) s (Or.inr hs') child.writes [] IOState.init
    (by simp [IOState.receivedFrom, IOState.init, chunksOf])
    (by intro _; simp [IOState.receivedFrom, IOState.init, chunksOf])
  have hB := copyAll_capture W _ _ (c.writer s) s hs' ho child.writes IOState.init
    (by cases s <;> simp [IOState.buffer, IOState.stopped, IOState.init, IOState.receivedFrom,
      String.join])
  simp only [List.nil_append] at hR
  exact ⟨hB, hR.1, hR.2, fun hw =>
    copyAll_running_capture W _ _ (c.writer s) s hs' hw child.writes IOState.init
      (by cases s <;> rfl)⟩

/-- C2 (amended). In a foreground call whose start succeeded and that returns,
with the placeholder of stream `s` non-empty: the string returned for `s` is the
concatenation, in order, of the chunks of `s` that the writer in front of the
buffer accepted. If that writer accepts every chunk (more generally, if the copy
of `s` did not end with an error) it is the concatenation of all chunks the
child wrote to `s`. If the copy ended on a failing `Write`, it is the
concatenation of the chunks handed to the writer before the failing one; what
the writer was handed is always a prefix of what the child wrote. -/
theorem run_capture_accepted_chunks (c : Cmd) (args : List String) (W : World)
    (child : Child) (r : Returned) (s : Stream)
    (hfg : c.Foreground = true)
    (hstart : ((c.command args).Start W).1.Process = some child)
    (hret : (c.run args W).result = some r)
    (hcap : c.placeholder s ≠ "") :
    (W.accepts (c.writer s) → r.capture s = String.join (chunksOf s child.writes)) ∧
    ((c.run args W).io.stopped s = false →
      r.capture s = String.join (chunksOf s child.writes)) ∧
    ((c.run args W).io.stopped s = true →
      r.capture s = String.join ((c.run args W).io.receivedFrom (c.writer s) s).dropLast) ∧
    (c.run args W).io.receivedFrom (c.writer s) s <+: chunksOf s child.writes := by
  obtain ⟨hB, hP, hE, hA⟩ := run_io_capture c args W child s hstart hcap
  have hrun : (c.run args W).io.stopped s = false →
      r.capture s = String.join (chunksOf s child.writes) := by
    intro h
    rw [run_result_capture c args W r s hfg hret, hB, h, ← hE h]
    simp
  refine ⟨fun hw => hrun (hA hw), hrun, fun h => ?_, hP⟩
  rw [run_result_capture c args W r s hfg hret, hB, h]
  simp

/-- Witness of `run_capture_accepted_chunks`: with accepting writers the
foreground call `Cmd.capturing` returns the stdout of `Child.hello`. -/
theorem run_capture_accepted_chunks_witness :
    ((Cmd.capturing.command []).Start (World.accepting Child.hello)).1.Process =
      some Child.hello ∧
    (Cmd.capturing.run [] (World.accepting Child.hello)).result =
      some ⟨"hello\n", "warn\n", none⟩ ∧
    Returned.capture ⟨"hello\n", "warn\n", none⟩ .stdout =
      String.join (chunksOf .stdout Child.hello.writes) :=
  ⟨rfl, by decide,
    (run_capture_accepted_chunks Cmd.capturing [] (World.accepting Child.hello) Child.hello
      ⟨"hello\n", "warn\n", none⟩ .stdout rfl rfl (by decide) (by decide)).1 (fun _ _ => rfl)⟩

/-- C2 as stated fails: with a primary writer that returns an error on every
`Write`, the child writes `hello` to stdout, capture is on, the start succeeds,
and the stdout string returned is empty. -/
theorem run_capture_failing_writer_counterexample :
    (Cmd.capturing.command []).Stdout = .multi [.external 1, .builder .stdout] ∧
    ((Cmd.capturing.command []).Start (World.closedWriter Child.hello)).1.Process = some Child.hello ∧
    String.join (chunksOf .stdout Child.hello.writes) = "hello\n" ∧
    (Cmd.capturing.run [] (World.closedWriter Child.hello)).result =
      some ⟨"", "", some (.write "closed")⟩ := by
  decide

/-! ## C3: background calls -/

theorem Start_error (W : World) (cmd : ExecCmd) :
    (cmd.Start W).2 =
      (match W.spawn cmd.Path cmd.Args cmd.Dir with
       | .ok _ => none
       | .error e => some e) := by
  unfold ExecCmd.Start
  split <;> rfl

/-- C3. A call with `Foreground = false` returns, and returns exactly
`("", "", e)` with `e` the error of `cmd.Start()` (nil when the start
succeeded): `e` is read off the outcome of starting the executable alone, so it
does not depend on the capture flags, on what the child writes, or on how or
whether the child ends. The caller performs nothing that could block or wait for
the child: `cmd.Wait()` and the send on `done` are not among its events, and its
last events are `go wait(err)` and the return. -/
theorem run_background_returns_start_error (c : Cmd) (args : List String) (W : World)
    (hbg : c.Foreground = false) :
    (c.run args W).result =
      some ⟨"", "", (match W.spawn c.Command (c.Command :: args) c.Directory with
                     | .ok _ => none
                     | .error e => some e)⟩ ∧
    (∃ pre e, (c.run args W).main = pre ++ [.start e, .goWait, .ret "" "" e] ∧
      (c.run args W).result = some ⟨"", "", e⟩) ∧
    (∀ ev ∈ (c.run args W).main, ev ≠ .waitCall ∧ ev ≠ .sendDone ∧ ev ≠ .recvDone ∧
      ∀ e, ev ≠ .waitReturn e) := by
  refine ⟨?_, ?_, ?_⟩
  · rw [run_result_background c args W hbg, Start_error]
    rfl
  · refine ⟨[.makeDone 1] ++ (if c.timeout > 0 then [.withTimeout c.timeout, .goGuard] else []),
      ((c.command args).Start W).2, ?_, run_result_background c args W hbg⟩
    simp [Cmd.run, hbg]
  · intro ev hev
    simp only [Cmd.run, hbg, Bool.false_eq_true, if_false] at hev
    have hmem : ev = .makeDone 1 ∨ ev = .withTimeout c.timeout ∨ ev = .goGuard ∨
        ev = .start ((c.command args).Start W).2 ∨ ev = .goWait ∨
        ev = .ret "" "" ((c.command args).Start W).2 := by
      split at hev <;> simp at hev <;> tauto
    rcases hmem with h | h | h | h | h | h <;> subst h <;> simp

/-- Witness of `run_background_returns_start_error`: a background call whose
child later exits with status one returns no error. -/
theorem run_background_returns_start_error_witness :
    Cmd.detached.Foreground = false ∧
    (Cmd.detached.run [] (World.accepting Child.failing)).result = some ⟨"", "", none⟩ :=
  ⟨rfl, (run_background_returns_start_error Cmd.detached [] (World.accepting Child.failing)
    rfl).1⟩

/-! ## C4: the error of a foreground call -/

theorem output_copyErr_none (W : World) (cmd : ExecCmd)
    (h1 : ∀ t ∈ cmd.Stdout.targets, ∀ w, t = .external w → W.accepts w)
    (h2 : ∀ t ∈ cmd.Stderr.targets, ∀ w, t = .external w → W.accepts w) :
    (cmd.output W).outStopped = false ∧ (cmd.output W).errStopped = false ∧
    (cmd.output W).copyErr = none := by
  unfold ExecCmd.output ExecCmd.outputAfter
  split
  · exact copyAll_no_failure W _ _ h1 h2 _ _ rfl rfl rfl
  · exact ⟨rfl, rfl, rfl⟩

/-- The external writers behind `cmd.Stdout` and `cmd.Stderr` are the primary
writer and the writer stderr is bound to. -/
theorem command_targets (c : Cmd) (args : List String) (W : World) :
    (∀ t ∈ ((c.command args).Start W).1.Stdout.targets, ∀ w, t = .external w →
      w = c.writer .stdout) ∧
    (∀ t ∈ ((c.command args).Start W).1.Stderr.targets, ∀ w, t = .external w →
      w = c.writer .stderr) := by
  obtain ⟨h1, h2, -⟩ := Start_fields W (c.command args)
  rw [h1, h2, command_Stdout, command_Stderr]
  constructor
  · intro t ht w hw
    subst hw
    split at ht <;> simpa [Sink.targets, Cmd.writer] using ht
  · intro t ht w hw
    subst hw
    split at ht <;> simpa [Sink.targets, Cmd.writer] using ht

/-- When the writers of both streams accept every chunk, no copy fails. -/
theorem run_io_no_failure (c : Cmd) (args : List String) (W : World)
    (ho : W.accepts (c.writer .stdout)) (he : W.accepts (c.writer .stderr)) :
    (c.run args W).io.outStopped = false ∧ (c.run args W).io.errStopped = false ∧
    (c.run args W).io.copyErr = none := by
  rw [run_io]
  obtain ⟨t1, t2⟩ := command_targets c args W
  exact output_copyErr_none W _ (fun t ht w hw => (t1 t ht w hw) ▸ ho)
    (fun t ht w hw => (t2 t ht w hw) ▸ he)

theorem Target_write_error (W : World) (o : Stream) (p : String) (st : IOState) (t : Target)
    (e : GoError) (h : (t.write W o p st).2.err = some e) :
    ∃ w hist, (W.write w hist p).err = some e := by
  cases t with
  | external w => exact ⟨w, _, h⟩
  | builder s => cases s <;> simp [Target.write] at h

theorem multiWrite_error (W : World) (o : Stream) (p : String) (ts : List Target)
    (st : IOState) (e : GoError) (h : (multiWrite W o p ts st).2.err = some e) :
    e = .shortWrite ∨ ∃ w hist, (W.write w hist p).err = some e := by
  induction ts generalizing st with
  | nil => simp [multiWrite] at h
  | cons t ts ih =>
    simp only [multiWrite] at h
    split at h
    · rename_i e' he'
      simp only [Option.some.injEq] at h
      subst h
      exact Or.inr (Target_write_error W o p st t e' he')
    · split at h
      · simp only [Option.some.injEq] at h
        exact Or.inl h.symm
      · exact ih _ h

/-- The error that ends a copy is the error a writer returned, or
`io.ErrShortWrite`, or "invalid write result". -/
theorem copyError_kinds (W : World) (o : Stream) (p : String) (k : Sink) (st : IOState)
    (e : GoError) (h : copyError p (k.write W o p st).2 = some e) :
    e = .shortWrite ∨ e = .invalidWrite ∨ ∃ w hist q, (W.write w hist q).err = some e := by
  unfold copyError at h
  split at h
  · rename_i e' he'
    simp only [Option.some.injEq] at h
    subst h
    cases k with
    | direct t =>
      obtain ⟨w, hist, hw⟩ := Target_write_error W o p st t e' he'
      exact Or.inr (Or.inr ⟨w, hist, p, hw⟩)
    | multi ts =>
      rcases multiWrite_error W o p ts st e' he' with h1 | ⟨w, hist, hw⟩
      · exact Or.inl h1
      · exact Or.inr (Or.inr ⟨w, hist, p, hw⟩)
  · split at h
    · simp only [Option.some.injEq] at h
      exact Or.inr (Or.inl h.symm)
    · split at h
      · simp only [Option.some.injEq] at h
        exact Or.inl h.symm
      · simp at h

theorem copyAll_copyErr_kinds (W : World) (stdout stderr : Sink)
    (ws : List (Stream × String)) (st : IOState)
    (h0 : ∀ e, st.copyErr = some e →
      e = .shortWrite ∨ e = .invalidWrite ∨ ∃ w hist q, (W.write w hist q).err = some e) :
    ∀ e, (copyAll W stdout stderr st ws).copyErr = some e →
      e = .shortWrite ∨ e = .invalidWrite ∨ ∃ w hist q, (W.write w hist q).err = some e := by
  induction ws generalizing st with
  | nil => exact h0
  | cons ev ws ih =>
    simp only [copyAll, List.foldl_cons]
    apply ih
    intro e he
    obtain ⟨o, p⟩ := ev
    cases o with
    | stdout =>
      simp only [copyChunk] at he
      split at he
      · exact h0 e he
      · obtain ⟨-, -, f3⟩ := Sink_write_stopped W .stdout p stdout st
        split at he
        · exact h0 e (f3 ▸ he)
        · rename_i e' he'
          simp only [f3] at he
          cases hc : st.copyErr with
          | some e0 =>
            rw [hc] at he
            simp only [HOrElse.hOrElse, OrElse.orElse, Option.orElse, Option.some.injEq] at he
            exact h0 e (hc.trans (congrArg some he))
          | none =>
            rw [hc] at he
            simp only [HOrElse.hOrElse, OrElse.orElse, Option.orElse, Option.some.injEq] at he
            subst he
            exact copyError_kinds W .stdout p stdout st e' he'
    | stderr =>
      simp only [copyChunk] at he
      split at he
      · exact h0 e he
      · obtain ⟨-, -, f3⟩ := Sink_write_stopped W .stderr p stderr st
        split at he
        · exact h0 e (f3 ▸ he)
        · rename_i e' he'
          simp only [f3] at he
          cases hc : st.copyErr with
          | some e0 =>
            rw [hc] at he
            simp only [HOrElse.hOrElse, OrElse.orElse, Option.orElse, Option.some.injEq] at he
            exact h0 e (hc.trans (congrArg some he))
          | none =>
            rw [hc] at he
            simp only [HOrElse.hOrElse, OrElse.orElse, Option.orElse, Option.some.injEq] at he
            subst he
            exact copyError_kinds W .stderr p stderr st e' he'

theorem run_io_copyErr_kinds (c : Cmd) (args : List String) (W : World) (e : GoError)
    (h : (c.run args W).io.copyErr = some e) :
    e = .shortWrite ∨ e = .invalidWrite ∨ ∃ w hist q, (W.write w hist q).err = some e := by
  rw [run_io] at h
  unfold ExecCmd.output ExecCmd.outputAfter at h
  split at h
  · exact copyAll_copyErr_kinds W _ _ _ _ (by intro e he; simp [IOState.init] at he) e h
  · simp [IOState.init] at h

/-- C4 (amended). In a foreground call whose start succeeded, `run` returns
exactly when `cmd.Wait()` returns, and the error it returns is the value of
`cmd.Wait()`, unchanged. `cmd.Wait()` returns when the child has ended and the
copies of its output have ended (the pipes reached end of file, or both copies
ended on a failed `Write`). Its value is nil if and only if the child exited
with code zero, was not killed, and no copy of its output ended with a write
error (none does when the writers accept every chunk); a child with a non-zero
exit code or killed by a signal gives its exit error, a child killed at the
deadline the ordinary exit error of signal 9; a child that exited with code
zero after a failed copy gives the first copy error, which is the error a
writer returned, `io.ErrShortWrite`, or "invalid write result". -/
theorem run_foreground_error_is_wait_result (c : Cmd) (args : List String) (W : World)
    (child : Child) (hfg : c.Foreground = true)
    (hstart : ((c.command args).Start W).1.Process = some child) :
    (c.run args W).result =
      (((c.command args).Start W).1.Wait W).map
        (fun e => ⟨(c.run args W).io.outBuffer, (c.run args W).io.errBuffer, e⟩) ∧
    ((c.command args).Start W).1.Wait W =
      (if child.pipesClose || ((c.run args W).io.outStopped && (c.run args W).io.errStopped) then
        match child.fate (decide (c.timeout > 0)) with
        | .runsForever => none
        | .killedAtDeadline => some (some (.signal 9))
        | .ended (.signaled s) => some (some (.signal s))
        | .ended (.exited 0) => some (c.run args W).io.copyErr
        | .ended (.exited (n + 1)) => some (some (.exit (n + 1)))
       else none) ∧
    (∀ r, (c.run args W).result = some r →
      (r.error = none ↔
        (child.fate (decide (c.timeout > 0)) = .ended (.exited 0) ∧
          (c.run args W).io.copyErr = none))) ∧
    (W.accepts (c.writer .stdout) → W.accepts (c.writer .stderr) →
      (c.run args W).io.copyErr = none) ∧
    (∀ e, (c.run args W).io.copyErr = some e →
      e = .shortWrite ∨ e = .invalidWrite ∨ ∃ w hist q, (W.write w hist q).err = some e) := by
  have hW : ((c.command args).Start W).1.Wait W =
      (if child.pipesClose || ((c.run args W).io.outStopped && (c.run args W).io.errStopped) then
        match child.fate (decide (c.timeout > 0)) with
        | .runsForever => none
        | .killedAtDeadline => some (some (.signal 9))
        | .ended (.signaled s) => some (some (.signal s))
        | .ended (.exited 0) => some (c.run args W).io.copyErr
        | .ended (.exited (n + 1)) => some (some (.exit (n + 1)))
       else none) := by
    rw [run_io]
    simp only [ExecCmd.Wait, hstart, (Start_fields W (c.command args)).2.2]
    rfl
  have hR : (c.run args W).result =
      (((c.command args).Start W).1.Wait W).map
        (fun e => ⟨(c.run args W).io.outBuffer, (c.run args W).io.errBuffer, e⟩) := by
    rw [run_result_foreground c args W hfg, wait_result_started c args W _ _ child hstart, run_io]
  refine ⟨hR, hW, ?_, fun ho he => (run_io_no_failure c args W ho he).2.2,
    run_io_copyErr_kinds c args W⟩
  intro r hr
  rw [hR, hW] at hr
  split at hr
  · split at hr <;> simp at hr <;> subst hr <;> simp_all
  · simp at hr

/-- Witness of `run_foreground_error_is_wait_result`: a child that exits with
status one makes the foreground call return the exit error. -/
theorem run_foreground_error_is_wait_result_witness :
    Cmd.plain.Foreground = true ∧
    ((Cmd.plain.command []).Start (World.accepting Child.failing)).1.Process =
      some Child.failing ∧
    (Cmd.plain.run [] (World.accepting Child.failing)).result =
      some ⟨"", "", some (.exit 1)⟩ :=
  ⟨rfl, rfl, (run_foreground_error_is_wait_result Cmd.plain [] (World.accepting Child.failing)
    Child.failing rfl rfl).1⟩

/-- C4 as stated fails: the child exits with code zero and is not killed, but
the primary writer writes short, and the foreground call returns
`io.ErrShortWrite` instead of nil. -/
theorem run_foreground_error_counterexample :
    ((Cmd.plain.command []).Start (World.shortWriter Child.hello)).1.Process =
      some Child.hello ∧
    Child.hello.fate (decide (Cmd.plain.timeout > 0)) = .ended (.exited 0) ∧
    (Cmd.plain.run [] (World.shortWriter Child.hello)).result =
      some ⟨"", "", some .shortWrite⟩ := by
  decide

/-- The copy errors of `io.Copy` and of the multi-writer differ for a writer
that reports more bytes than it was given: bound directly, the copy ends with
"invalid write result"; behind a multi-writer, with `io.ErrShortWrite`. A child
killed at the deadline gives the exit error of signal 9. -/
theorem run_foreground_error_examples :
    (Cmd.plain.run [] (World.overWriter Child.hello)).result =
      some ⟨"", "", some .invalidWrite⟩ ∧
    (Cmd.capturing.run [] (World.overWriter Child.hello)).result =
      some ⟨"", "", some .shortWrite⟩ ∧
    ({ Cmd.plain with timeout := 1000000000 }.run [] (World.accepting Child.daemon)).result =
      some ⟨"", "", some (.signal 9)⟩ := by
  decide

/-! ## C5: a failed start -/

theorem waitStep_not_started (c : Cmd) (args : List String) (W : World) (e : GoError)
    (h : ((c.command args).Start W).2 = some e) :
    ((c.command args).Start W).1.Process = none ∧
    (c.waitStep args W).events =
      [.sendDone, .log ⟨.error, "exit", c.Command :: args, "", some e⟩] ∧
    (c.waitStep args W).result = some ⟨"", "", some e⟩ := by
  have hp : ((c.command args).Start W).1.Process = none := by
    rcases Start_cases W (c.command args) rfl with ⟨child, -, h2⟩ | ⟨e', h1, -⟩
    · rw [h2] at h
      exact absurd h (by simp)
    · exact h1
  refine ⟨hp, ?_, ?_⟩
  · simp [Cmd.waitStep, Cmd.wait, hp, h]
  · simp [Cmd.waitStep, wait_result_not_started c args W _ _ hp, h]

theorem run_events (c : Cmd) (args : List String) (W : World) :
    (c.Foreground = true →
      (c.run args W).main =
        [.makeDone 1] ++ (if c.timeout > 0 then [.withTimeout c.timeout, .goGuard] else []) ++
          [.start ((c.command args).Start W).2] ++ (c.waitStep args W).events ++
          (match (c.waitStep args W).result with
           | some r => [.ret r.out r.err r.error]
           | none => []) ∧
      (c.run args W).waiter = [] ∧
      (c.run args W).result = (c.waitStep args W).result) ∧
    (c.Foreground = false →
      (c.run args W).main =
        [.makeDone 1] ++ (if c.timeout > 0 then [.withTimeout c.timeout, .goGuard] else []) ++
          [.start ((c.command args).Start W).2, .goWait,
            .ret "" "" ((c.command args).Start W).2] ∧
      (c.run args W).waiter = (c.waitStep args W).events) ∧
    (c.run args W).guard = (if c.timeout > 0 then [.recvDone, .cancel] else []) := by
  refine ⟨fun h => ?_, fun h => ?_, ?_⟩
  · simp [Cmd.run, h, Cmd.waitStep]
  · simp [Cmd.run, h, Cmd.waitStep]
  · unfold Cmd.run
    simp only
    split <;> rfl

/-- The events of `wait`: `cmd.Wait()` is called exactly when `cmd.Process` is
not nil; if it returns, or was not called, the send on `done` and one log entry
follow, the entry at error level with the error attached when the error is not
nil and at info level otherwise. -/
theorem waitStep_events (c : Cmd) (args : List String) (W : World) :
    (∀ child, ((c.command args).Start W).1.Process = some child →
      (((c.command args).Start W).1.Wait W = none ∧ (c.waitStep args W).events = [.waitCall] ∧
        (c.waitStep args W).result = none) ∨
      (∃ err, ((c.command args).Start W).1.Wait W = some err ∧
        (c.waitStep args W).events = [.waitCall, .waitReturn err, .sendDone,
          .log ⟨if err ≠ none then .error else .info, "exit", c.Command :: args, "", err⟩] ∧
        (c.waitStep args W).result =
          some ⟨(c.waitStep args W).io.outBuffer, (c.waitStep args W).io.errBuffer, err⟩)) ∧
    (((c.command args).Start W).1.Process = none →
      (c.waitStep args W).events = [.sendDone,
        .log ⟨if ((c.command args).Start W).2 ≠ none then .error else .info, "exit",
          c.Command :: args, "", ((c.command args).Start W).2⟩] ∧
      (c.waitStep args W).result = some ⟨"", "", ((c.command args).Start W).2⟩) := by
  constructor
  · intro child hp
    cases hw : ((c.command args).Start W).1.Wait W with
    | none =>
      refine Or.inl ⟨rfl, ?_, ?_⟩ <;> simp [Cmd.waitStep, Cmd.wait, hp, hw]
    | some err =>
      refine Or.inr ⟨err, rfl, ?_, ?_⟩
      · cases err <;> simp [Cmd.waitStep, Cmd.wait, hp, hw]
      · cases err <;> simp [Cmd.waitStep, Cmd.wait, hp, hw]
  · intro hp
    refine ⟨?_, by simp [Cmd.waitStep, wait_result_not_started c args W _ _ hp]⟩
    cases he : ((c.command args).Start W).2 <;> simp [Cmd.waitStep, Cmd.wait, hp, he]

/-- C5. When `cmd.Start()` fails with error `e`: no process handle exists;
`cmd.Wait()` is called by no goroutine of the invocation; the closure `wait`
sends on `done`, logs one entry, at error level and carrying `e`, and ends with
`e`; a foreground call returns `("", "", e)`. Conversely, in every invocation in
which `cmd.Wait()` is called (so that its result replaces the error), the error
of `cmd.Start()` was nil. -/
theorem run_start_failure_propagates (c : Cmd) (args : List String) (W : World) :
    (∀ e, ((c.command args).Start W).2 = some e →
      ((c.command args).Start W).1.Process = none ∧
      Event.waitCall ∉ (c.run args W).main ++ (c.run args W).waiter ++ (c.run args W).guard ∧
      (c.waitStep args W).events =
        [.sendDone, .log ⟨.error, "exit", c.Command :: args, "", some e⟩] ∧
      (c.waitStep args W).result = some ⟨"", "", some e⟩ ∧
      (∀ entry, Event.log entry ∈
          (c.run args W).main ++ (c.run args W).waiter ++ (c.run args W).guard ↔
        entry = ⟨.error, "exit", c.Command :: args, "", some e⟩) ∧
      (c.Foreground = true → (c.run args W).result = some ⟨"", "", some e⟩)) ∧
    (Event.waitCall ∈ (c.run args W).main ++ (c.run args W).waiter ++ (c.run args W).guard →
      ((c.command args).Start W).2 = none) := by
  obtain ⟨hfgE, hbgE, hgE⟩ := run_events c args W
  have hfail : ∀ e, ((c.command args).Start W).2 = some e →
      Event.waitCall ∉ (c.run args W).main ++ (c.run args W).waiter ++ (c.run args W).guard := by
    intro e he
    obtain ⟨-, hev, hres⟩ := waitStep_not_started c args W e he
    rw [hgE]
    cases hf : c.Foreground with
    | true =>
      obtain ⟨hm, hw, -⟩ := hfgE hf
      rw [hm, hw, hev, hres]
      split <;> simp
    | false =>
      obtain ⟨hm, hw⟩ := hbgE hf
      rw [hm, hw, hev]
      split <;> simp
  constructor
  · intro e he
    obtain ⟨hp, hev, hres⟩ := waitStep_not_started c args W e he
    refine ⟨hp, hfail e he, hev, hres, fun entry => ?_, fun hf => ?_⟩
    · rw [hgE]
      cases hf : c.Foreground with
      | true =>
        obtain ⟨hm, hw, -⟩ := hfgE hf
        rw [hm, hw, hev, hres]
        split <;> simp [eq_comm]
      | false =>
        obtain ⟨hm, hw⟩ := hbgE hf
        rw [hm, hw, hev]
        split <;> simp [eq_comm]
    · rw [(hfgE hf).2.2, hres]
  · intro hmem
    cases he : ((c.command args).Start W).2 with
    | none => rfl
    | some e => exact absurd hmem (hfail e he)

/-- Witness of `run_start_failure_propagates`: the executable does not exist,
and the foreground call returns the error of the start. -/
theorem run_start_failure_propagates_witness :
    ((Cmd.plain.command []).Start World.notFound).2 =
      some (.start "executable file not found") ∧
    (Cmd.plain.run [] World.notFound).result =
      some ⟨"", "", some (.start "executable file not found")⟩ :=
  ⟨rfl, ((run_start_failure_propagates Cmd.plain [] World.notFound).1
    (.start "executable file not found") rfl).2.2.2.2.2 rfl⟩

/-! ## C6: where stderr goes -/

theorem command_sink_shape (c : Cmd) (args : List String) (W : World) (s : Stream) :
    (match s with
      | .stdout => ((c.command args).Start W).1.Stdout
      | .stderr => ((c.command args).Start W).1.Stderr) = .direct (.external (c.writer s)) ∨
    (match s with
      | .stdout => ((c.command args).Start W).1.Stdout
      | .stderr => ((c.command args).Start W).1.Stderr) =
        .multi [.external (c.writer s), .builder s] := by
  obtain ⟨h1, h2, -⟩ := Start_fields W (c.command args)
  cases s with
  | stdout =>
    simp only [h1, command_Stdout, Cmd.writer]
    split <;> simp
  | stderr =>
    simp only [h2, command_Stderr, Cmd.writer]
    split <;> simp

/-- What the writer of stream `s` is handed from `s` is a prefix of what the
child wrote to `s`, and all of it if the copy of `s` did not end with an
error. -/
theorem run_io_received (c : Cmd) (args : List String) (W : World) (child : Child) (s : Stream)
    (hstart : ((c.command args).Start W).1.Process = some child) :
    (c.run args W).io.receivedFrom (c.writer s) s <+: chunksOf s child.writes ∧
    ((c.run args W).io.stopped s = false →
      (c.run args W).io.receivedFrom (c.writer s) s = chunksOf s child.writes) := by
  rw [run_io]
  simp only [ExecCmd.output, ExecCmd.outputAfter, hstart]
  have hR := copyAll_received W _ _ (c.writer s) s (command_sink_shape c args W s) child.writes []
    IOState.init (by simp [IOState.receivedFrom, IOState.init, chunksOf])
    (by intro _; simp [IOState.receivedFrom, IOState.init, chunksOf])
  simpa using hR

theorem copyAll_append (W : World) (stdout stderr : Sink) (st : IOState)
    (a b : List (Stream × String)) :
    copyAll W stdout stderr st (a ++ b) =
      copyAll W stdout stderr (copyAll W stdout stderr st a) b := by
  simp [copyAll, List.foldl_append]

/-- Once the copy of stream `s` has ended, it stays ended and the writer of `s`
is handed nothing more of `s`. -/
theorem copyAll_stopped_frozen (W : World) (stdout stderr : Sink) (w : Nat) (s : Stream)
    (ws : List (Stream × String)) (st : IOState) (h : st.stopped s = true) :
    (copyAll W stdout stderr st ws).receivedFrom w s = st.receivedFrom w s ∧
    (copyAll W stdout stderr st ws).stopped s = true := by
  induction ws generalizing st with
  | nil => exact ⟨rfl, h⟩
  | cons ev ws ih =>
    simp only [copyAll, List.foldl_cons]
    by_cases hev : ev.1 = s
    · obtain ⟨o, p⟩ := ev
      simp only at hev
      subst hev
      rw [copyChunk_stopped_self W stdout stderr st o p h]
      exact ih st h
    · obtain ⟨e1, e2, -, -⟩ := copyChunk_other W stdout stderr w s st ev hev
      have hst : (copyChunk W stdout stderr st ev).stopped s = true := by
        cases hc : (copyChunk W stdout stderr st ev).stopped s with
        | true => rfl
        | false => exact absurd (e2 hc) (by simp [h])
      obtain ⟨a, b⟩ := ih _ hst
      exact ⟨a.trans e1, b⟩

/-- A chunk of stream `s` whose `Write` on the writer of `s` fails is handed to
the writer and ends the copy of `s`. -/
theorem copyChunk_failing (W : World) (stdout stderr : Sink) (w : Nat) (s : Stream)
    (hs : (match s with | .stdout => stdout | .stderr => stderr) = .direct (.external w) ∨
      (match s with | .stdout => stdout | .stderr => stderr) = .multi [.external w, .builder s])
    (st : IOState) (p : String) (hrun : st.stopped s = false)
    (hfail : W.write w (st.received w) p ≠ ⟨len p, none⟩) :
    (copyChunk W stdout stderr st (s, p)).receivedFrom w s = st.receivedFrom w s ++ [p] ∧
    (copyChunk W stdout stderr st (s, p)).stopped s = true := by
  rcases hs with hs | hs
  · obtain ⟨h1, h2⟩ := copyChunk_own_direct W stdout stderr w s hs st p hrun
    refine ⟨h1, ?_⟩
    cases hc : (copyChunk W stdout stderr st (s, p)).stopped s with
    | true => rfl
    | false => exact absurd (h2.1 hc) hfail
  · obtain ⟨h1, h2⟩ := copyChunk_own_capture W stdout stderr w s hs st p hrun
    refine ⟨h1, ?_⟩
    rcases h2 with ⟨-, -, c3⟩ | ⟨c1, -, -⟩
    · exact absurd c3 hfail
    · exact c1

/-- Where the delivery of stream `s` stops: once the copy of `s` has ended, the
writer of `s` is handed nothing more of `s`; and a chunk of `s` whose `Write`
fails ends the copy, so that chunk is the last one handed to the writer. -/
theorem run_io_delivery_stops (c : Cmd) (args : List String) (W : World) (child : Child)
    (s : Stream) (hstart : ((c.command args).Start W).1.Process = some child) :
    (∀ pre post, child.writes = pre ++ post →
      (((c.command args).Start W).1.outputAfter W pre).stopped s = true →
      (c.run args W).io.receivedFrom (c.writer s) s =
        (((c.command args).Start W).1.outputAfter W pre).receivedFrom (c.writer s) s) ∧
    (∀ pre p post, child.writes = pre ++ (s, p) :: post →
      (((c.command args).Start W).1.outputAfter W pre).stopped s = false →
      W.write (c.writer s) ((((c.command args).Start W).1.outputAfter W pre).received
        (c.writer s)) p ≠ ⟨len p, none⟩ →
      (c.run args W).io.receivedFrom (c.writer s) s = chunksOf s pre ++ [p]) := by
  rw [run_io]
  simp only [ExecCmd.output, ExecCmd.outputAfter, hstart]
  have hshape := command_sink_shape c args W s
  constructor
  · intro pre post hw hst
    rw [hw, copyAll_append]
    exact (copyAll_stopped_frozen W _ _ (c.writer s) s post _ hst).1
  · intro pre p post hw hrun hfail
    have hR := copyAll_received W _ _ (c.writer s) s hshape pre [] IOState.init
      (by simp [IOState.receivedFrom, IOState.init, chunksOf])
      (by intro _; simp [IOState.receivedFrom, IOState.init, chunksOf])
    simp only [List.nil_append] at hR
    obtain ⟨f1, f2⟩ := copyChunk_failing W _ _ (c.writer s) s hshape _ p hrun hfail
    have hsplit : pre ++ (s, p) :: post = pre ++ ([(s, p)] ++ post) := by simp
    rw [hw, hsplit, copyAll_append, copyAll_append]
    have hone : copyAll W ((c.command args).Start W).1.Stdout ((c.command args).Start W).1.Stderr
        (copyAll W ((c.command args).Start W).1.Stdout ((c.command args).Start W).1.Stderr
          IOState.init pre) [(s, p)] =
        copyChunk W ((c.command args).Start W).1.Stdout ((c.command args).Start W).1.Stderr
          (copyAll W ((c.command args).Start W).1.Stdout ((c.command args).Start W).1.Stderr
            IOState.init pre) (s, p) := rfl
    rw [hone, (copyAll_stopped_frozen W _ _ (c.writer s) s post _ f2).1, f1, hR.2 hrun]

/-- C6 (amended). `cmd.Stdout` is the primary writer (behind a multi-writer with
the stdout buffer when stdout is captured); `cmd.Stderr` is the configured error
writer when there is one and the primary writer when there is none (behind a
multi-writer with the stderr buffer when stderr is captured); starting the
command does not change the binding. Hence, with no error writer configured and
whatever the capture flags, the chunks of stderr handed to the primary writer
are a prefix of the chunks the child wrote to stderr: all of them if the copy of
stderr did not end with an error, in particular if the primary writer accepts
every chunk. Once the copy of stderr has ended, nothing more of stderr is handed
to the primary writer; a chunk of stderr whose `Write` on the primary writer
fails ends the copy, so it is the last chunk of stderr delivered. -/
theorem run_stderr_binding_and_delivery (c : Cmd) (args : List String) (W : World) :
    (c.command args).Stdout =
      (if len c.OutPlaceholder > 0 then .multi [.external c.stdWriter, .builder .stdout]
       else .direct (.external c.stdWriter)) ∧
    (∀ w, c.errWriter = some w →
      (c.command args).Stderr =
        (if len c.ErrPlaceholder > 0 then .multi [.external w, .builder .stderr]
         else .direct (.external w))) ∧
    (c.errWriter = none →
      (c.command args).Stderr =
        (if len c.ErrPlaceholder > 0 then .multi [.external c.stdWriter, .builder .stderr]
         else .direct (.external c.stdWriter))) ∧
    (((c.command args).Start W).1.Stdout = (c.command args).Stdout ∧
      ((c.command args).Start W).1.Stderr = (c.command args).Stderr) ∧
    (c.errWriter = none → ∀ child, ((c.command args).Start W).1.Process = some child →
      (c.run args W).io.receivedFrom c.stdWriter .stderr <+: chunksOf .stderr child.writes ∧
      ((c.run args W).io.errStopped = false →
        (c.run args W).io.receivedFrom c.stdWriter .stderr = chunksOf .stderr child.writes) ∧
      (W.accepts c.stdWriter →
        (c.run args W).io.receivedFrom c.stdWriter .stderr = chunksOf .stderr child.writes) ∧
      (∀ pre post, child.writes = pre ++ post →
        (((c.command args).Start W).1.outputAfter W pre).errStopped = true →
        (c.run args W).io.receivedFrom c.stdWriter .stderr =
          (((c.command args).Start W).1.outputAfter W pre).receivedFrom c.stdWriter .stderr) ∧
      (∀ pre p post, child.writes = pre ++ (.stderr, p) :: post →
        (((c.command args).Start W).1.outputAfter W pre).errStopped = false →
        W.write c.stdWriter ((((c.command args).Start W).1.outputAfter W pre).received
          c.stdWriter) p ≠ ⟨len p, none⟩ →
        (c.run args W).io.receivedFrom c.stdWriter .stderr =
          chunksOf .stderr pre ++ [p])) := by
  obtain ⟨s1, s2, -⟩ := Start_fields W (c.command args)
  refine ⟨command_Stdout c args, fun w hw => ?_, fun hn => ?_, ⟨s1, s2⟩, fun hn child hstart => ?_⟩
  · rw [command_Stderr, hw]
    rfl
  · rw [command_Stderr, hn]
    rfl
  · have hwr : c.writer .stderr = c.stdWriter := by simp [Cmd.writer, hn]
    have hR := run_io_received c args W child .stderr hstart
    have hS := run_io_delivery_stops c args W child .stderr hstart
    rw [hwr] at hR hS
    refine ⟨hR.1, hR.2, fun ha => hR.2 ?_, hS.1, hS.2⟩
    exact (run_io_no_failure c args W ha (hwr ▸ ha)).2.1

/-- Witness of `run_stderr_binding_and_delivery`: with no error writer and an
accepting primary writer, both stderr chunks of `Child.noisy` reach writer 1;
with a primary writer that fails every `Write`, the first chunk is the last one
delivered. -/
theorem run_stderr_binding_and_delivery_witness :
    Cmd.plain.errWriter = none ∧
    ((Cmd.plain.command []).Start (World.accepting Child.noisy)).1.Process =
      some Child.noisy ∧
    (Cmd.plain.run [] (World.accepting Child.noisy)).io.receivedFrom 1 .stderr = ["a", "b"] ∧
    (Cmd.plain.run [] (World.closedWriter Child.noisy)).io.receivedFrom 1 .stderr = ["a"] :=
  ⟨rfl, rfl,
    ((run_stderr_binding_and_delivery Cmd.plain [] (World.accepting Child.noisy)).2.2.2.2 rfl
      Child.noisy rfl).2.2.1 (fun _ _ => rfl),
    ((run_stderr_binding_and_delivery Cmd.plain [] (World.closedWriter Child.noisy)).2.2.2.2 rfl
      Child.noisy rfl).2.2.2.2 [] "a" [(.stderr, "b")] rfl rfl (by decide)⟩

/-- C6 as stated fails: no error writer is configured, the child writes the
chunks `a` and `b` to stderr, the primary writer returns an error on the first
`Write`, and the second chunk is never handed to it. -/
theorem run_stderr_delivery_counterexample :
    Cmd.plain.errWriter = none ∧
    ((Cmd.plain.command []).Start (World.closedWriter Child.noisy)).1.Process =
      some Child.noisy ∧
    chunksOf .stderr Child.noisy.writes = ["a", "b"] ∧
    (Cmd.plain.run [] (World.closedWriter Child.noisy)).io.received Cmd.plain.stdWriter =
      ["a"] := by
  decide

/-! ## C8: the two captures -/

/-- The string returned for a stream is the concatenation of a prefix of the
chunks the child wrote to that stream. -/
theorem run_capture_initial (c : Cmd) (args : List String) (W : World) (child : Child)
    (r : Returned) (s : Stream) (hfg : c.Foreground = true)
    (hstart : ((c.command args).Start W).1.Process = some child)
    (hret : (c.run args W).result = some r) :
    ∃ pre, pre <+: chunksOf s child.writes ∧ r.capture s = String.join pre := by
  by_cases hcap : c.placeholder s = ""
  · refine ⟨[], List.nil_prefix, ?_⟩
    rw [run_result_capture c args W r s hfg hret]
    cases s
    · exact (run_io_buffer_empty c args W).1 hcap
    · exact (run_io_buffer_empty c args W).2 hcap
  · obtain ⟨hB, hP, hE, -⟩ := run_io_capture c args W child s hstart hcap
    rw [run_result_capture c args W r s hfg hret, hB]
    cases hst : (c.run args W).io.stopped s with
    | false => exact ⟨_, hP, by simp⟩
    | true => exact ⟨_, ( List.dropLast_prefix _).trans hP, by simp⟩

/-- C8 (amended). Take two foreground calls with the same configuration and
arguments, both started and both returning, in which the child writes the same
bytes to stream `s` (and anything to the other stream). If in neither call the
copy of `s` ended with a write error, in particular if the writer of `s` accepts
every chunk in both, the strings returned for `s` are equal. In every call the
string returned for `s` is the concatenation of a prefix of the chunks the child
wrote to `s`, so bytes of the other stream never appear in it. -/
theorem run_captures_independent (c : Cmd) (args : List String) (W1 W2 : World)
    (ch1 ch2 : Child) (r1 r2 : Returned) (s : Stream)
    (hfg : c.Foreground = true)
    (hs1 : ((c.command args).Start W1).1.Process = some ch1)
    (hs2 : ((c.command args).Start W2).1.Process = some ch2)
    (hr1 : (c.run args W1).result = some r1)
    (hr2 : (c.run args W2).result = some r2)
    (hsame : String.join (chunksOf s ch1.writes) = String.join (chunksOf s ch2.writes)) :
    ((c.run args W1).io.stopped s = false → (c.run args W2).io.stopped s = false →
      r1.capture s = r2.capture s) ∧
    (W1.accepts (c.writer s) → W2.accepts (c.writer s) → r1.capture s = r2.capture s) ∧
    (∃ pre, pre <+: chunksOf s ch1.writes ∧ r1.capture s = String.join pre) ∧
    (∃ pre, pre <+: chunksOf s ch2.writes ∧ r2.capture s = String.join pre) := by
  have hfull : (c.run args W1).io.stopped s = false → (c.run args W2).io.stopped s = false →
      c.placeholder s ≠ "" → r1.capture s = r2.capture s := by
    intro h1 h2 hcap
    obtain ⟨hB1, -, hE1, -⟩ := run_io_capture c args W1 ch1 s hs1 hcap
    obtain ⟨hB2, -, hE2, -⟩ := run_io_capture c args W2 ch2 s hs2 hcap
    rw [run_result_capture c args W1 r1 s hfg hr1, run_result_capture c args W2 r2 s hfg hr2,
      hB1, hB2, h1, h2]
    simp only [Bool.false_eq_true, if_false]
    rw [hE1 h1, hE2 h2, hsame]
  refine ⟨?_, ?_, run_capture_initial c args W1 ch1 r1 s hfg hs1 hr1,
    run_capture_initial c args W2 ch2 r2 s hfg hs2 hr2⟩
  · intro h1 h2
    by_cases hcap : c.placeholder s = ""
    · rw [run_result_capture c args W1 r1 s hfg hr1, run_result_capture c args W2 r2 s hfg hr2]
      cases s
      · exact ((run_io_buffer_empty c args W1).1 hcap).trans
          ((run_io_buffer_empty c args W2).1 hcap).symm
      · exact ((run_io_buffer_empty c args W1).2 hcap).trans
          ((run_io_buffer_empty c args W2).2 hcap).symm
    · exact hfull h1 h2 hcap
  · intro h1 h2
    by_cases hcap : c.placeholder s = ""
    · rw [run_result_capture c args W1 r1 s hfg hr1, run_result_capture c args W2 r2 s hfg hr2]
      cases s
      · exact ((run_io_buffer_empty c args W1).1 hcap).trans
          ((run_io_buffer_empty c args W2).1 hcap).symm
      · exact ((run_io_buffer_empty c args W1).2 hcap).trans
          ((run_io_buffer_empty c args W2).2 hcap).symm
    · exact hfull ((run_io_capture c args W1 ch1 s hs1 hcap).2.2.2 h1)
        ((run_io_capture c args W2 ch2 s hs2 hcap).2.2.2 h2) hcap

/-- Witness of `run_captures_independent`: `Child.quiet` and `Child.chatty` write
the same bytes to stdout; with accepting writers the stdout strings returned
are equal. -/
theorem run_captures_independent_witness :
    (Cmd.capturing.run [] (World.accepting Child.quiet)).result =
      some ⟨"out\n", "", none⟩ ∧
    (Cmd.capturing.run [] (World.accepting Child.chatty)).result =
      some ⟨"out\n", "warn\n", none⟩ ∧
    Returned.capture ⟨"out\n", "", none⟩ .stdout =
      Returned.capture ⟨"out\n", "warn\n", none⟩ .stdout :=
  ⟨by decide, by decide,
    (run_captures_independent Cmd.capturing [] (World.accepting Child.quiet)
      (World.accepting Child.chatty) Child.quiet Child.chatty ⟨"out\n", "", none⟩
      ⟨"out\n", "warn\n", none⟩ .stdout rfl rfl rfl (by decide) (by decide) (by decide)).2.1
      (fun _ _ => rfl) (fun _ _ => rfl)⟩

/-- C8 as stated fails: same configuration, same arguments, same writers (each
accepts only the first chunk it is handed), the same bytes on stdout; the child
of the second call also writes to stderr first, and the stdout strings returned
differ. -/
theorem run_captures_interfere_counterexample :
    (World.onceWriter Child.quiet).write = (World.onceWriter Child.chatty).write ∧
    chunksOf .stdout Child.quiet.writes = chunksOf .stdout Child.chatty.writes ∧
    (Cmd.capturing.run [] (World.onceWriter Child.quiet)).result =
      some ⟨"out\n", "", none⟩ ∧
    (Cmd.capturing.run [] (World.onceWriter Child.chatty)).result =
      some ⟨"", "warn\n", some (.write "full")⟩ :=
  ⟨rfl, by decide, by decide, by decide⟩

/-! ## The interleaving of the goroutines -/

theorem exec_append (inv : Invocation) (m : Machine) (s1 s2 : List Tid) :
    m.exec inv (s1 ++ s2) = (m.exec inv s1).exec inv s2 := by
  simp [Machine.exec, List.foldl_append]

/-- Induction over the states reached under a schedule. -/
theorem exec_induction (inv : Invocation) (P : Machine → Prop) (m : Machine) (sched : List Tid)
    (h0 : P m) (hstep : ∀ m t m', P m → m.step inv t = some m' → P m') :
    P (m.exec inv sched) := by
  induction sched generalizing m with
  | nil => exact h0
  | cons t ts ih =>
    simp only [Machine.exec, List.foldl_cons]
    apply ih
    cases h : m.step inv t with
    | none => simpa using h0
    | some m' => simpa using hstep m t m' h0 h

/-- What one step does. -/
theorem step_spec (inv : Invocation) (m m' : Machine) (t : Tid) (h : m.step inv t = some m') :
    ∃ e r, m.rest t = some (e :: r) ∧ e.enabled m = true ∧
      m' = ({ m.setRest t r with trace := m.trace ++ [(t, e)] }).effect inv e := by
  unfold Machine.step at h
  split at h
  · rename_i e r hr
    split at h
    · rename_i hen
      exact ⟨e, r, hr, hen, by simpa using h.symm⟩
    · simp at h
  · simp at h

theorem effect_trace (inv : Invocation) (m : Machine) (e : Event) :
    (m.effect inv e).trace = m.trace := by
  cases e <;> rfl

theorem effect_main (inv : Invocation) (m : Machine) (e : Event) :
    (m.effect inv e).main = m.main := by
  cases e <;> rfl

theorem effect_waiter (inv : Invocation) (m : Machine) (e : Event) :
    (m.effect inv e).waiter = if e = .goWait then some inv.waiter else m.waiter := by
  cases e <;> simp [Machine.effect]

theorem effect_guard (inv : Invocation) (m : Machine) (e : Event) :
    (m.effect inv e).guard = if e = .goGuard then some inv.guard else m.guard := by
  cases e <;> simp [Machine.effect]

theorem effect_chanLen (inv : Invocation) (m : Machine) (e : Event) :
    (m.effect inv e).chanLen =
      if e = .sendDone then m.chanLen + 1 else if e = .recvDone then m.chanLen - 1
      else m.chanLen := by
  cases e <;> simp [Machine.effect]

theorem effect_chanCap (inv : Invocation) (m : Machine) (e : Event) :
    (m.effect inv e).chanCap = (match e with | .makeDone k => k | _ => m.chanCap) := by
  cases e <;> rfl

theorem proj_snoc (t u : Tid) (tr : List (Tid × Event)) (e : Event) :
    proj t (tr ++ [(u, e)]) = if u = t then proj t tr ++ [e] else proj t tr := by
  unfold proj
  by_cases h : u = t <;> simp [List.filter_append, h]

theorem mem_events_of_mem_proj (t : Tid) (tr : List (Tid × Event)) (e : Event)
    (h : e ∈ proj t tr) : e ∈ tr.map Prod.snd := by
  unfold proj at h
  simp only [List.mem_map, List.mem_filter] at h ⊢
  obtain ⟨x, ⟨hx, -⟩, rfl⟩ := h
  exact ⟨x, hx, rfl⟩

theorem Inv_init (inv : Invocation) : (Machine.init inv).Inv inv where
  main := by simp [Machine.init, proj]
  waiter := Or.inl ⟨rfl, rfl, by simp [Machine.init, proj]⟩
  guard := Or.inl ⟨rfl, rfl, by simp [Machine.init, proj]⟩
  chan := by simp [Machine.init, Machine.events]
  cap := by simp [Machine.init, Machine.events]

/-- A goroutine that can step has performed a prefix of its events, and the
event it performs next is the next of its list. -/
theorem Inv_prog_eq {inv : Invocation} {m : Machine} (h : m.Inv inv) (t : Tid) (e : Event)
    (r : List Event) (hr : m.rest t = some (e :: r)) :
    proj t m.trace ++ e :: r = inv.prog t := by
  cases t with
  | main =>
    simp only [Machine.rest, Option.some.injEq] at hr
    rw [← hr]
    exact h.main
  | waiter =>
    simp only [Machine.rest] at hr
    rcases h.waiter with ⟨hn, -, -⟩ | ⟨r', hs, hp, -⟩
    · rw [hn] at hr
      exact absurd hr (by simp)
    · rw [hs] at hr
      simp only [Option.some.injEq] at hr
      rw [← hr]
      exact hp
  | guard =>
    simp only [Machine.rest] at hr
    rcases h.guard with ⟨hn, -, -⟩ | ⟨r', hs, hp, -⟩
    · rw [hn] at hr
      exact absurd hr (by simp)
    · rw [hs] at hr
      simp only [Option.some.injEq] at hr
      rw [← hr]
      exact hp

theorem Inv_mem_prog {inv : Invocation} {m : Machine} (h : m.Inv inv) (t : Tid) (e : Event)
    (r : List Event) (hr : m.rest t = some (e :: r)) : e ∈ inv.prog t := by
  rw [← Inv_prog_eq h t e r hr]
  simp

theorem WF_not_spawn {inv : Invocation} (hwf : inv.WF) (t : Tid) (e : Event)
    (he : e ∈ inv.prog t) (ht : t ≠ .main) :
    e ≠ .goWait ∧ e ≠ .goGuard ∧ ∀ k, e ≠ .makeDone k := by
  apply hwf.spawned
  cases t with
  | main => exact absurd rfl ht
  | waiter => exact List.mem_append_left _ he
  | guard => exact List.mem_append_right _ he

theorem events_step (m : Machine) (t : Tid) (e : Event) :
    (m.trace ++ [(t, e)]).map Prod.snd = m.events ++ [e] := by
  simp [Machine.events]

/-- The invariant is kept by every step. -/
theorem Inv_step (inv : Invocation) (hwf : inv.WF) (m m' : Machine) (t : Tid)
    (h : m.Inv inv) (hs : m.step inv t = some m') : m'.Inv inv := by
  obtain ⟨e, r, hr, hen, rfl⟩ := step_spec inv m m' t hs
  have hprog := Inv_prog_eq h t e r hr
  have hmem := Inv_mem_prog h t e r hr
  have htrace : (({ m.setRest t r with trace := m.trace ++ [(t, e)] }).effect inv e).trace =
      m.trace ++ [(t, e)] := by
    rw [effect_trace]
  have hevents : (({ m.setRest t r with trace := m.trace ++ [(t, e)] }).effect inv e).events =
      m.events ++ [e] := by
    simp [Machine.events, htrace]
  have hchan : (({ m.setRest t r with trace := m.trace ++ [(t, e)] }).effect inv e).chanLen +
      (m.events ++ [e]).count .recvDone = (m.events ++ [e]).count .sendDone := by
    have hc := h.chan
    have hl : ({ m.setRest t r with trace := m.trace ++ [(t, e)] } : Machine).chanLen =
        m.chanLen := by
      cases t <;> rfl
    rw [effect_chanLen, hl, List.count_append, List.count_append]
    by_cases h1 : e = .sendDone
    · subst h1
      simp only [if_true, List.count_singleton_self]
      have : List.count Event.recvDone [Event.sendDone] = 0 := by decide
      omega
    · by_cases h2 : e = .recvDone
      · subst h2
        have hpos : 0 < m.chanLen := by simpa [Event.enabled] using hen
        have : List.count Event.sendDone [Event.recvDone] = 0 := by decide
        simp only [if_true, List.count_singleton_self, h1, if_false]
        omega
      · have e1 : List.count Event.sendDone [e] = 0 := by
          simp [List.count_singleton, Ne.symm h1]
        have e2 : List.count Event.recvDone [e] = 0 := by
          simp [List.count_singleton, Ne.symm h2]
        simp only [h1, h2, if_false, e1, e2]
        omega
  have hcap : (∃ k, Event.makeDone k ∈ m.events ++ [e]) →
      (({ m.setRest t r with trace := m.trace ++ [(t, e)] }).effect inv e).chanCap = 1 := by
    intro hex
    have hl : ({ m.setRest t r with trace := m.trace ++ [(t, e)] } : Machine).chanCap =
        m.chanCap := by
      cases t <;> rfl
    rw [effect_chanCap]
    by_cases hmk : ∃ k, e = .makeDone k
    · obtain ⟨k, rfl⟩ := hmk
      exact hwf.make t k hmem
    · have hc : m.chanCap = 1 := by
        apply h.cap
        obtain ⟨k, hk⟩ := hex
        rcases List.mem_append.1 hk with h' | h'
        · exact ⟨k, h'⟩
        · exact absurd ⟨k, (List.mem_singleton.1 h').symm⟩ hmk
      cases e <;> first | exact hl.trans hc | exact absurd ⟨_, rfl⟩ hmk
  cases t with
  | main =>
    simp only [Machine.rest, Option.some.injEq] at hr
    have hnd : e ∉ proj .main m.trace := by
      have := hwf.nodup
      rw [← h.main, hr] at this
      intro hin
      exact (List.nodup_append.1 this).2.2 hin (List.mem_cons_self _ _)
    refine ⟨?_, ?_, ?_, ?_, ?_⟩
    · rw [htrace, effect_main, proj_snoc]
      simp only [Machine.setRest, if_true, List.append_assoc, List.singleton_append]
      rw [← hr]
      exact h.main
    · rw [htrace, effect_waiter, proj_snoc, proj_snoc]
      simp only [Machine.setRest, if_true, (by decide : Tid.main ≠ Tid.waiter), if_false]
      by_cases hgw : e = .goWait
      · subst hgw
        simp only [if_true]
        right
        rcases h.waiter with ⟨-, hp, -⟩ | ⟨r', -, -, hin⟩
        · exact ⟨inv.waiter, rfl, by simp [hp], by simp⟩
        · exact absurd hin hnd
      · simp only [hgw, if_false]
        rcases h.waiter with ⟨hn, hp, hin⟩ | ⟨r', hs', hp, hin⟩
        · left
          refine ⟨hn, hp, ?_⟩
          simp only [List.mem_append, List.mem_singleton, not_or]
          exact ⟨hin, fun h' => hgw h'.symm⟩
        · right
          exact ⟨r', hs', hp, List.mem_append_left _ hin⟩
    · rw [htrace, effect_guard, proj_snoc, proj_snoc]
      simp only [Machine.setRest, if_true, (by decide : Tid.main ≠ Tid.guard), if_false]
      by_cases hgw : e = .goGuard
      · subst hgw
        simp only [if_true]
        right
        rcases h.guard with ⟨-, hp, -⟩ | ⟨r', -, -, hin⟩
        · exact ⟨inv.guard, rfl, by simp [hp], by simp⟩
        · exact absurd hin hnd
      · simp only [hgw, if_false]
        rcases h.guard with ⟨hn, hp, hin⟩ | ⟨r', hs', hp, hin⟩
        · left
          refine ⟨hn, hp, ?_⟩
          simp only [List.mem_append, List.mem_singleton, not_or]
          exact ⟨hin, fun h' => hgw h'.symm⟩
        · right
          exact ⟨r', hs', hp, List.mem_append_left _ hin⟩
    · rw [hevents]
      exact hchan
    · rw [hevents]
      exact hcap
  | waiter =>
    obtain ⟨n1, n2, -⟩ := WF_not_spawn hwf .waiter e hmem (by decide)
    simp only [Machine.rest] at hr
    refine ⟨?_, ?_, ?_, ?_, ?_⟩
    · rw [htrace, effect_main, proj_snoc]
      simp only [Machine.setRest, (by decide : Tid.waiter ≠ Tid.main), if_false]
      exact h.main
    · rw [htrace, effect_waiter, proj_snoc, proj_snoc]
      simp only [Machine.setRest, if_true, (by decide : Tid.waiter ≠ Tid.main), if_false, n1]
      right
      rcases h.waiter with ⟨hn, -, -⟩ | ⟨r', hs', hp, hin⟩
      · rw [hn] at hr
        exact absurd hr (by simp)
      · refine ⟨r, rfl, ?_, hin⟩
        simpa using hprog
    · rw [htrace, effect_guard, proj_snoc, proj_snoc]
      simp only [Machine.setRest, (by decide : Tid.waiter ≠ Tid.main),
        (by decide : Tid.waiter ≠ Tid.guard), if_false, n2]
      exact h.guard
    · rw [hevents]
      exact hchan
    · rw [hevents]
      exact hcap
  | guard =>
    obtain ⟨n1, n2, -⟩ := WF_not_spawn hwf .guard e hmem (by decide)
    simp only [Machine.rest] at hr
    refine ⟨?_, ?_, ?_, ?_, ?_⟩
    · rw [htrace, effect_main, proj_snoc]
      simp only [Machine.setRest, (by decide : Tid.guard ≠ Tid.main), if_false]
      exact h.main
    · rw [htrace, effect_waiter, proj_snoc, proj_snoc]
      simp only [Machine.setRest, (by decide : Tid.guard ≠ Tid.main),
        (by decide : Tid.guard ≠ Tid.waiter), if_false, n1]
      exact h.waiter
    · rw [htrace, effect_guard, proj_snoc, proj_snoc]
      simp only [Machine.setRest, if_true, (by decide : Tid.guard ≠ Tid.main), if_false, n2]
      right
      rcases h.guard with ⟨hn, -, -⟩ | ⟨r', hs', hp, hin⟩
      · rw [hn] at hr
        exact absurd hr (by simp)
      · refine ⟨r, rfl, ?_, hin⟩
        simpa using hprog
    · rw [hevents]
      exact hchan
    · rw [hevents]
      exact hcap

/-- The invariant holds in every state an invocation can reach. -/
theorem Inv_reach (inv : Invocation) (hwf : inv.WF) (sched : List Tid) :
    (inv.reach sched).Inv inv :=
  exec_induction inv (fun m => m.Inv inv) _ sched (Inv_init inv)
    (fun m t m' h hs => Inv_step inv hwf m m' t h hs)

/-! ## The goroutines of `run` -/

/-- The three shapes of the events of `wait`. -/
theorem waitStep_shape (c : Cmd) (args : List String) (W : World) :
    ((c.waitStep args W).events = [.waitCall] ∧ (c.waitStep args W).result = none ∧
      c.waitsForever args W = true ∧ ((c.command args).Start W).2 = none) ∨
    (∃ err entry, (c.waitStep args W).events = [.waitCall, .waitReturn err, .sendDone, .log entry] ∧
      (c.waitStep args W).result =
        some ⟨(c.waitStep args W).io.outBuffer, (c.waitStep args W).io.errBuffer, err⟩ ∧
      entry = ⟨if err ≠ none then .error else .info, "exit", c.Command :: args, "", err⟩ ∧
      c.waitsForever args W = false ∧ ((c.command args).Start W).2 = none ∧
      ((c.command args).Start W).1.Wait W = some err) ∨
    (∃ e entry, (c.waitStep args W).events = [.sendDone, .log entry] ∧
      (c.waitStep args W).result = some ⟨"", "", some e⟩ ∧
      entry = ⟨.error, "exit", c.Command :: args, "", some e⟩ ∧
      c.waitsForever args W = false ∧ ((c.command args).Start W).2 = some e ∧
      ((c.command args).Start W).1.Process = none) := by
  obtain ⟨hs, hn⟩ := waitStep_events c args W
  rcases Start_cases W (c.command args) rfl with ⟨child, hp, he⟩ | ⟨e, hp, he⟩
  · rcases hs child hp with ⟨hw, hev, hres⟩ | ⟨err, hw, hev, hres⟩
    · refine Or.inl ⟨hev, hres, ?_, he⟩
      simp [Cmd.waitsForever, hp, hw]
    · refine Or.inr (Or.inl ⟨err, _, hev, hres, rfl, ?_, he, hw⟩)
      simp [Cmd.waitsForever, hp, hw]
  · obtain ⟨hev, hres⟩ := hn hp
    refine Or.inr (Or.inr ⟨e, _, ?_, ?_, rfl, ?_, he, hp⟩)
    · rw [hev, he]
      simp
    · rw [hres, he]
    · simp [Cmd.waitsForever, hp]

theorem run_WF (c : Cmd) (args : List String) (W : World) : (c.run args W).WF := by
  obtain ⟨hfgE, hbgE, hgE⟩ := run_events c args W
  have hshape := waitStep_shape c args W
  cases hf : c.Foreground with
  | true =>
    obtain ⟨hm, hw, -⟩ := hfgE hf
    refine ⟨⟨_, by rw [hm]; rfl⟩, ?_, ?_, ?_⟩
    · rw [hm]
      rcases hshape with ⟨h1, h2, -⟩ | ⟨err, entry, h1, h2, -⟩ | ⟨e, entry, h1, h2, -⟩ <;>
        rw [h1, h2] <;> split <;> simp
    · intro t k hk
      cases t with
      | main =>
        simp only [Invocation.prog, hm] at hk
        rcases hshape with ⟨h1, h2, -⟩ | ⟨err, entry, h1, h2, -⟩ | ⟨e, entry, h1, h2, -⟩ <;>
          rw [h1, h2] at hk <;> split at hk <;> simpa using hk
      | waiter => simp [Invocation.prog, hw] at hk
      | guard =>
        simp only [Invocation.prog, hgE] at hk
        split at hk <;> simp at hk
    · intro e he
      rw [hw, hgE] at he
      refine ⟨?_, ?_, ?_⟩
      · intro h
        subst h
        split at he <;> simp at he
      · intro h
        subst h
        split at he <;> simp at he
      · intro k h
        subst h
        split at he <;> simp at he
  | false =>
    obtain ⟨hm, hw⟩ := hbgE hf
    refine ⟨⟨_, by rw [hm]; rfl⟩, ?_, ?_, ?_⟩
    · rw [hm]
      split <;> simp
    · intro t k hk
      cases t with
      | main =>
        simp only [Invocation.prog, hm] at hk
        split at hk <;> simpa using hk
      | waiter =>
        simp only [Invocation.prog, hw] at hk
        rcases hshape with ⟨h1, -⟩ | ⟨err, entry, h1, -⟩ | ⟨e, entry, h1, -⟩ <;>
          rw [h1] at hk <;> simp at hk
      | guard =>
        simp only [Invocation.prog, hgE] at hk
        split at hk <;> simp at hk
    · intro e he
      rw [hw, hgE] at he
      refine ⟨?_, ?_, ?_⟩
      · intro h
        subst h
        rcases hshape with ⟨h1, -⟩ | ⟨err, entry, h1, -⟩ | ⟨e', entry, h1, -⟩ <;>
          rw [h1] at he <;> split at he <;> simp at he
      · intro h
        subst h
        rcases hshape with ⟨h1, -⟩ | ⟨err, entry, h1, -⟩ | ⟨e', entry, h1, -⟩ <;>
          rw [h1] at he <;> split at he <;> simp at he
      · intro k h
        subst h
        rcases hshape with ⟨h1, -⟩ | ⟨err, entry, h1, -⟩ | ⟨e', entry, h1, -⟩ <;>
          rw [h1] at he <;> split at he <;> simp at he

/-! ## Order and number of events -/

theorem precedesB_sound {α : Type} (p q : α → Bool) (l : List α)
    (h : precedesB p q l = true) : Precedes p q l := by
  induction l with
  | nil =>
    intro pre x post he
    simp at he
  | cons a l ih =>
    intro pre x post he hq
    simp only [precedesB] at h
    cases pre with
    | nil =>
      simp only [List.nil_append, List.cons.injEq] at he
      rw [← he.1] at hq
      simp [hq] at h
    | cons b pre' =>
      simp only [List.cons_append, List.cons.injEq] at he
      obtain ⟨hab, hl⟩ := he
      subst hab
      by_cases hp : p a = true
      · exact ⟨a, List.mem_cons_self _ _, hp⟩
      · by_cases hqa : q a = true
        · simp [hqa] at h
        · simp only [hqa, hp, Bool.false_eq_true, if_false] at h
          obtain ⟨y, hy, hpy⟩ := ih h pre' x post hl hq
          exact ⟨y, List.mem_cons_of_mem _ hy, hpy⟩

theorem Precedes_snoc {α : Type} (p q : α → Bool) (l : List α) (e : α)
    (h : Precedes p q l) (he : q e = true → ∃ y ∈ l, p y = true) : Precedes p q (l ++ [e]) := by
  intro pre x post hd hq
  rcases List.eq_nil_or_concat post with hp | ⟨post', z, hp⟩
  · subst hp
    have := List.append_inj' hd (by simp)
    obtain ⟨h1, h2⟩ := this
    simp only [List.cons.injEq, and_true] at h2
    subst h1 h2
    exact he hq
  · subst hp
    have hd' : l ++ [e] = (pre ++ x :: post') ++ [z] := by simpa using hd
    have := List.append_inj' hd' (by simp)
    exact h pre x post' this.1 hq

theorem Precedes_trans {α : Type} (p q r : α → Bool) (l : List α)
    (h1 : Precedes p q l) (h2 : Precedes q r l) : Precedes p r l := by
  intro pre x post hd hr
  obtain ⟨y, hy, hqy⟩ := h2 pre x post hd hr
  obtain ⟨a, b, hab⟩ := List.append_of_mem hy
  subst hab
  obtain ⟨z, hz, hpz⟩ := h1 a y (b ++ x :: post) (by simpa using hd) hqy
  exact ⟨z, List.mem_append_left _ hz, hpz⟩

theorem countP_events (p : Event → Bool) (tr : List (Tid × Event)) :
    (tr.map Prod.snd).countP p =
      (proj .main tr).countP p + (proj .waiter tr).countP p + (proj .guard tr).countP p := by
  induction tr with
  | nil => rfl
  | cons x tr ih =>
    obtain ⟨t, e⟩ := x
    cases t <;> by_cases hp : p e = true <;>
      simp [proj, List.countP_cons, hp] at ih ⊢ <;> omega

theorem Inv_proj_initial {inv : Invocation} {m : Machine} (h : m.Inv inv) (t : Tid) :
    proj t m.trace <+: inv.prog t := by
  cases t with
  | main => exact ⟨_, h.main⟩
  | waiter =>
    rcases h.waiter with ⟨-, hp, -⟩ | ⟨r, -, hp, -⟩
    · rw [hp]
      exact List.nil_prefix
    · exact ⟨_, hp⟩
  | guard =>
    rcases h.guard with ⟨-, hp, -⟩ | ⟨r, -, hp, -⟩
    · rw [hp]
      exact List.nil_prefix
    · exact ⟨_, hp⟩

/-- No kind of event happens more often than the goroutines have it in their
lists. -/
theorem Inv_countP_le {inv : Invocation} {m : Machine} (h : m.Inv inv) (p : Event → Bool) :
    m.events.countP p ≤
      inv.main.countP p + inv.waiter.countP p + inv.guard.countP p := by
  rw [Machine.events, countP_events]
  have h1 := (Inv_proj_initial h .main).countP_le p
  have h2 := (Inv_proj_initial h .waiter).countP_le p
  have h3 := (Inv_proj_initial h .guard).countP_le p
  simp only [Invocation.prog] at h1 h2 h3
  omega

/-- An order between two kinds of events holds in every reachable trace if it
holds whenever a goroutine is about to perform an event of the second kind. -/
theorem Precedes_reach (inv : Invocation) (hwf : inv.WF) (p q : Event → Bool)
    (hside : ∀ m t e r, m.Inv inv → m.rest t = some (e :: r) → e.enabled m = true →
      q e = true → ∃ y ∈ m.events, p y = true)
    (sched : List Tid) : Precedes p q (inv.reach sched).events := by
  have := exec_induction inv (fun m => m.Inv inv ∧ Precedes p q m.events) (Machine.init inv)
    sched ⟨Inv_init inv, by intro pre x post he; simp [Machine.init, Machine.events] at he⟩
    (by
      intro m t m' ⟨hi, hp⟩ hs
      refine ⟨Inv_step inv hwf m m' t hi hs, ?_⟩
      obtain ⟨e, r, hr, hen, rfl⟩ := step_spec inv m m' t hs
      have hev : (({ m.setRest t r with trace := m.trace ++ [(t, e)] }).effect inv e).events =
          m.events ++ [e] := by
        simp [Machine.events, effect_trace]
      rw [hev]
      exact Precedes_snoc p q _ e hp (hside m t e r hi hr hen))
  exact this.2

/-- Order inside one goroutine. -/
theorem side_same {inv : Invocation} {m : Machine} (p q : Event → Bool) (t : Tid) (e : Event)
    (r : List Event) (hp : Precedes p q (inv.prog t)) (hi : m.Inv inv)
    (hr : m.rest t = some (e :: r)) (hq : q e = true) : ∃ y ∈ m.events, p y = true := by
  obtain ⟨y, hy, hpy⟩ := hp (proj t m.trace) e r (Inv_prog_eq hi t e r hr).symm hq
  exact ⟨y, mem_events_of_mem_proj t m.trace y hy, hpy⟩

/-- Everything the goroutine `go wait(err)` does comes after what the caller did
before starting it. -/
theorem side_waiter {inv : Invocation} {m : Machine} (p : Event → Bool) (e : Event)
    (r : List Event) (hp : Precedes p Event.isGoWait inv.main) (hi : m.Inv inv)
    (hr : m.rest .waiter = some (e :: r)) : ∃ y ∈ m.events, p y = true := by
  simp only [Machine.rest] at hr
  rcases hi.waiter with ⟨hn, -, -⟩ | ⟨r', -, -, hin⟩
  · rw [hn] at hr
    exact absurd hr (by simp)
  · obtain ⟨a, b, hab⟩ := List.append_of_mem hin
    have hm : inv.main = a ++ Event.goWait :: (b ++ m.main) := by
      rw [← hi.main, hab]
      simp
    obtain ⟨y, hy, hpy⟩ := hp a .goWait _ hm rfl
    refine ⟨y, mem_events_of_mem_proj .main m.trace y ?_, hpy⟩
    rw [hab]
    exact List.mem_append_left _ hy

/-- Everything the guarding goroutine does comes after what the caller did
before starting it. -/
theorem side_guard {inv : Invocation} {m : Machine} (p : Event → Bool) (e : Event)
    (r : List Event) (hp : Precedes p Event.isGoGuard inv.main) (hi : m.Inv inv)
    (hr : m.rest .guard = some (e :: r)) : ∃ y ∈ m.events, p y = true := by
  simp only [Machine.rest] at hr
  rcases hi.guard with ⟨hn, -, -⟩ | ⟨r', -, -, hin⟩
  · rw [hn] at hr
    exact absurd hr (by simp)
  · obtain ⟨a, b, hab⟩ := List.append_of_mem hin
    have hm : inv.main = a ++ Event.goGuard :: (b ++ m.main) := by
      rw [← hi.main, hab]
      simp
    obtain ⟨y, hy, hpy⟩ := hp a .goGuard _ hm rfl
    refine ⟨y, mem_events_of_mem_proj .main m.trace y ?_, hpy⟩
    rw [hab]
    exact List.mem_append_left _ hy

/-- Order across goroutines: an order that holds in the list of the caller, and
in the list of each other goroutine or between the caller's events and the
start of that goroutine, holds in every reachable trace. -/
theorem Precedes_of_progs (inv : Invocation) (hwf : inv.WF) (p q : Event → Bool)
    (hm : Precedes p q inv.main)
    (hw : Precedes p q inv.waiter ∨ Precedes p Event.isGoWait inv.main)
    (hg : Precedes p q inv.guard ∨ Precedes p Event.isGoGuard inv.main)
    (sched : List Tid) : Precedes p q (inv.reach sched).events := by
  apply Precedes_reach inv hwf
  intro m t e r hi hr _ hq
  cases t with
  | main => exact side_same p q .main e r hm hi hr hq
  | waiter =>
    rcases hw with h | h
    · exact side_same p q .waiter e r h hi hr hq
    · exact side_waiter p e r h hi hr
  | guard =>
    rcases hg with h | h
    · exact side_same p q .guard e r h hi hr hq
    · exact side_guard p e r h hi hr

/-- A receive from the channel comes after a send. -/
theorem Precedes_send_recv (inv : Invocation) (hwf : inv.WF) (sched : List Tid) :
    Precedes Event.isSend Event.isRecv (inv.reach sched).events := by
  apply Precedes_reach inv hwf
  intro m t e r hi _ hen hq
  have he : e = .recvDone := by cases e <;> simp [Event.isRecv] at hq ⊢
  subst he
  have hpos : 0 < m.chanLen := by simpa [Event.enabled] using hen
  have hc := hi.chan
  have : 0 < m.events.count .sendDone := by omega
  rw [List.count_pos_iff] at this
  exact ⟨.sendDone, this, rfl⟩

/-- The event lists of the goroutines of `run`, case by case: with or without
timeout; `cmd.Wait()` never returning, returning, or not called because the
start failed; foreground or background. -/
theorem run_cases (c : Cmd) (args : List String) (W : World) :
    ∃ (te ge wev retl : List Event) (serr : Option GoError),
      ((c.command args).Start W).2 = serr ∧
      ((c.timeout > 0 ∧ te = [.withTimeout c.timeout, .goGuard] ∧
          ge = [.recvDone, .cancel]) ∨
        (¬ c.timeout > 0 ∧ te = [] ∧ ge = [])) ∧
      ((c.waitsForever args W = true ∧ serr = none ∧ wev = [.waitCall] ∧ retl = []) ∨
        (∃ err entry out er, c.waitsForever args W = false ∧ serr = none ∧
          wev = [.waitCall, .waitReturn err, .sendDone, .log entry] ∧
          retl = [.ret out er err]) ∨
        (∃ e entry, c.waitsForever args W = false ∧ serr = some e ∧
          wev = [.sendDone, .log entry] ∧ retl = [.ret "" "" (some e)])) ∧
      ((c.Foreground = true ∧
          (c.run args W).main = .makeDone 1 :: (te ++ .start serr :: (wev ++ retl)) ∧
          (c.run args W).waiter = []) ∨
        (c.Foreground = false ∧
          (c.run args W).main = .makeDone 1 :: (te ++ [.start serr, .goWait, .ret "" "" serr]) ∧
          (c.run args W).waiter = wev)) ∧
      (c.run args W).guard = ge := by
  obtain ⟨hfgE, hbgE, hgE⟩ := run_events c args W
  refine ⟨if c.timeout > 0 then [.withTimeout c.timeout, .goGuard] else [],
    if c.timeout > 0 then [.recvDone, .cancel] else [], (c.waitStep args W).events,
    (match (c.waitStep args W).result with
     | some r => [.ret r.out r.err r.error]
     | none => []), ((c.command args).Start W).2, rfl, ?_, ?_, ?_, hgE⟩
  · by_cases hT : c.timeout > 0
    · exact Or.inl ⟨hT, by simp [hT], by simp [hT]⟩
    · exact Or.inr ⟨hT, by simp [hT], by simp [hT]⟩
  · rcases waitStep_shape c args W with ⟨h1, h2, h3, h4⟩ | ⟨err, entry, h1, h2, -, h3, h4, -⟩ |
      ⟨e, entry, h1, h2, -, h3, h4, -⟩
    · exact Or.inl ⟨h3, h4, h1, by rw [h2]⟩
    · exact Or.inr (Or.inl ⟨err, entry, _, _, h3, h4, h1, by rw [h2]⟩)
    · exact Or.inr (Or.inr ⟨e, entry, h3, h4, h1, by rw [h2]⟩)
  · cases hf : c.Foreground with
    | true =>
      obtain ⟨hm, hw, -⟩ := hfgE hf
      exact Or.inl ⟨rfl, by rw [hm]; simp, hw⟩
    | false =>
      obtain ⟨hm, hw⟩ := hbgE hf
      exact Or.inr ⟨rfl, by rw [hm]; simp, hw⟩

/-- Inside every goroutine, the send on `done` comes after `cmd.Start()`, or the
goroutine is `go wait(err)` and is started after `cmd.Start()`. -/
theorem run_start_before_send (c : Cmd) (args : List String) (W : World) :
    precedesB Event.isStart Event.isSend (c.run args W).main = true ∧
    precedesB Event.isStart Event.isGoWait (c.run args W).main = true ∧
    precedesB Event.isStart Event.isSend (c.run args W).guard = true := by
  obtain ⟨te, ge, wev, retl, serr, -, hT, hW, hF, hg⟩ := run_cases c args W
  rcases hT with ⟨-, rfl, rfl⟩ | ⟨-, rfl, rfl⟩ <;>
  rcases hW with ⟨-, rfl, rfl, rfl⟩ | ⟨err, entry, out, er, -, rfl, rfl, rfl⟩ |
    ⟨e, entry, -, rfl, rfl, rfl⟩ <;>
  rcases hF with ⟨-, hm, hw⟩ | ⟨-, hm, hw⟩ <;>
  simp [hm, hw, hg, precedesB, Event.isStart, Event.isSend, Event.isGoWait]

/-- When the start succeeded, the send on `done` comes after the return of
`cmd.Wait()` inside every goroutine. -/
theorem run_waitReturn_before_send (c : Cmd) (args : List String) (W : World)
    (hst : ((c.command args).Start W).2 = none) (t : Tid) :
    precedesB Event.isWaitReturn Event.isSend ((c.run args W).prog t) = true := by
  obtain ⟨te, ge, wev, retl, serr, hs, hT, hW, hF, hg⟩ := run_cases c args W
  rw [hst] at hs
  subst hs
  rcases hT with ⟨-, rfl, rfl⟩ | ⟨-, rfl, rfl⟩ <;>
  rcases hW with ⟨-, -, rfl, rfl⟩ | ⟨err, entry, out, er, -, -, rfl, rfl⟩ |
    ⟨e, entry, -, h, rfl, rfl⟩ <;>
  rcases hF with ⟨-, hm, hw⟩ | ⟨-, hm, hw⟩ <;>
  cases t <;>
  simp_all [Invocation.prog, precedesB, Event.isWaitReturn, Event.isSend]

/-- Inside every goroutine the log entry comes after the send on `done`, and
`cancel()` after the receive. -/
theorem run_send_log_recv_cancel (c : Cmd) (args : List String) (W : World) (t : Tid) :
    precedesB Event.isSend Event.isLog ((c.run args W).prog t) = true ∧
    precedesB Event.isRecv Event.isCancel ((c.run args W).prog t) = true := by
  obtain ⟨te, ge, wev, retl, serr, -, hT, hW, hF, hg⟩ := run_cases c args W
  rcases hT with ⟨-, rfl, rfl⟩ | ⟨-, rfl, rfl⟩ <;>
  rcases hW with ⟨-, rfl, rfl, rfl⟩ | ⟨err, entry, out, er, -, rfl, rfl, rfl⟩ |
    ⟨e, entry, -, rfl, rfl, rfl⟩ <;>
  rcases hF with ⟨-, hm, hw⟩ | ⟨-, hm, hw⟩ <;>
  cases t <;>
  simp [Invocation.prog, hm, hw, hg, precedesB, Event.isLog, Event.isSend, Event.isRecv,
    Event.isCancel]

/-- In a foreground call the return comes after the log entry. -/
theorem run_log_before_ret (c : Cmd) (args : List String) (W : World)
    (hfg : c.Foreground = true) (t : Tid) :
    precedesB Event.isLog Event.isRet ((c.run args W).prog t) = true := by
  obtain ⟨te, ge, wev, retl, serr, -, hT, hW, hF, hg⟩ := run_cases c args W
  rcases hT with ⟨-, rfl, rfl⟩ | ⟨-, rfl, rfl⟩ <;>
  rcases hW with ⟨-, rfl, rfl, rfl⟩ | ⟨err, entry, out, er, -, rfl, rfl, rfl⟩ |
    ⟨e, entry, -, rfl, rfl, rfl⟩ <;>
  rcases hF with ⟨-, hm, hw⟩ | ⟨hbg, hm, hw⟩ <;>
  cases t <;>
  simp_all [Invocation.prog, precedesB, Event.isLog, Event.isRet]

/-- How many sends, log entries, cancels and receives the goroutines of `run`
have in their lists, and which goroutines the caller starts. -/
theorem run_counts (c : Cmd) (args : List String) (W : World) :
    ((c.run args W).main.countP Event.isSend + (c.run args W).waiter.countP Event.isSend +
      (c.run args W).guard.countP Event.isSend = if c.waitsForever args W then 0 else 1) ∧
    ((c.run args W).main.countP Event.isLog + (c.run args W).waiter.countP Event.isLog +
      (c.run args W).guard.countP Event.isLog = if c.waitsForever args W then 0 else 1) ∧
    ((c.run args W).main.countP Event.isCancel + (c.run args W).waiter.countP Event.isCancel +
      (c.run args W).guard.countP Event.isCancel = if c.timeout > 0 then 1 else 0) ∧
    ((c.run args W).main.countP Event.isRecv = 0 ∧
      (c.run args W).waiter.countP Event.isRecv = 0 ∧
      (c.run args W).guard.countP Event.isSend = 0) ∧
    (Event.goWait ∈ (c.run args W).main ↔ c.Foreground = false) ∧
    (Event.goGuard ∈ (c.run args W).main ↔ c.timeout > 0) := by
  obtain ⟨te, ge, wev, retl, serr, -, hT, hW, hF, hg⟩ := run_cases c args W
  rcases hT with ⟨hT, rfl, rfl⟩ | ⟨hT, rfl, rfl⟩ <;>
  rcases hW with ⟨hfor, rfl, rfl, rfl⟩ | ⟨err, entry, out, er, hfor, rfl, rfl, rfl⟩ |
    ⟨e, entry, hfor, rfl, rfl, rfl⟩ <;>
  rcases hF with ⟨hf, hm, hw⟩ | ⟨hf, hm, hw⟩ <;>
  simp [hm, hw, hg, hf, hfor, hT, List.countP_cons, Event.isLog, Event.isSend, Event.isRecv,
    Event.isCancel]

/-! ## The channel `done` -/

theorem count_eq_countP_isSend (l : List Event) : l.count .sendDone = l.countP Event.isSend := by
  rw [List.count_eq_countP]
  apply List.countP_congr
  intro e _
  cases e <;> simp [Event.isSend]

theorem count_eq_countP_isRecv (l : List Event) : l.count .recvDone = l.countP Event.isRecv := by
  rw [List.count_eq_countP]
  apply List.countP_congr
  intro e _
  cases e <;> simp [Event.isRecv]

/-- A goroutine whose next event is the send on `done` finds the channel made,
with capacity one, and empty: the send does not block. -/
theorem send_enabled (c : Cmd) (args : List String) (W : World) (m : Machine)
    (hi : m.Inv (c.run args W)) (t : Tid) (r : List Event)
    (hr : m.rest t = some (.sendDone :: r)) :
    m.chanCap = 1 ∧ m.chanLen = 0 ∧ Event.enabled m .sendDone = true := by
  have hwf := run_WF c args W
  obtain ⟨hcs, -, -, ⟨-, -, hgs⟩, -, -⟩ := run_counts c args W
  have hprog := Inv_prog_eq hi t .sendDone r hr
  have hle : (c.run args W).main.countP Event.isSend + (c.run args W).waiter.countP Event.isSend +
      (c.run args W).guard.countP Event.isSend ≤ 1 := by
    rw [hcs]
    split <;> omega
  have h1 := (Inv_proj_initial hi .main).countP_le Event.isSend
  have h2 := (Inv_proj_initial hi .waiter).countP_le Event.isSend
  have h3 := (Inv_proj_initial hi .guard).countP_le Event.isSend
  simp only [Invocation.prog] at h1 h2 h3
  have ht : (proj t m.trace).countP Event.isSend + 1 ≤ ((c.run args W).prog t).countP Event.isSend := by
    rw [← hprog, List.countP_append, List.countP_cons]
    simp [Event.isSend]
  have hzero : m.events.countP Event.isSend = 0 := by
    rw [Machine.events, countP_events]
    cases t <;> simp only [Invocation.prog] at ht <;> omega
  have hlen : m.chanLen = 0 := by
    have := hi.chan
    rw [count_eq_countP_isSend, hzero] at this
    omega
  have hne : proj .main m.trace ≠ [] := by
    cases t with
    | main =>
      intro h0
      obtain ⟨tail, htail⟩ := hwf.head
      rw [h0] at hprog
      simp only [Invocation.prog, List.nil_append, htail, List.cons.injEq] at hprog
      exact absurd hprog.1 (by simp)
    | waiter =>
      simp only [Machine.rest] at hr
      rcases hi.waiter with ⟨hn, -, -⟩ | ⟨r', -, -, hin⟩
      · rw [hn] at hr
        exact absurd hr (by simp)
      · exact List.ne_nil_of_mem hin
    | guard =>
      simp only [Invocation.prog] at ht
      omega
  have hcap : m.chanCap = 1 := by
    apply hi.cap
    obtain ⟨tail, htail⟩ := hwf.head
    have hm := hi.main
    rw [htail] at hm
    cases hp : proj .main m.trace with
    | nil => exact absurd hp hne
    | cons a l =>
      rw [hp] at hm
      simp only [List.cons_append, List.cons.injEq] at hm
      refine ⟨1, mem_events_of_mem_proj .main m.trace _ ?_⟩
      rw [hp, hm.1]
      exact List.mem_cons_self _ _
  exact ⟨hcap, hlen, by simp [Event.enabled, hcap, hlen]⟩

/-! ## Complete runs -/

theorem step_eq_none (inv : Invocation) (m : Machine) (t : Tid) (h : m.step inv t = none) :
    m.rest t = none ∨ m.rest t = some [] ∨
      ∃ e r, m.rest t = some (e :: r) ∧ e.enabled m = false := by
  unfold Machine.step at h
  cases hr : m.rest t with
  | none => exact Or.inl rfl
  | some l =>
    cases l with
    | nil => exact Or.inr (Or.inl rfl)
    | cons e r =>
      refine Or.inr (Or.inr ⟨e, r, rfl, ?_⟩)
      simp only [hr] at h
      cases he : e.enabled m with
      | false => rfl
      | true => simp [he] at h

theorem blocked_event (m : Machine) (e : Event) (h : e.enabled m = false) :
    (e = .sendDone) ∨ (e = .recvDone ∧ m.chanLen = 0) := by
  cases e <;> simp [Event.enabled] at h ⊢
  exact h

/-- A goroutine of `run` other than the guard never blocks: when it cannot
step, it has performed all its events. -/
theorem not_blocked (c : Cmd) (args : List String) (W : World) (m : Machine)
    (hi : m.Inv (c.run args W)) (t : Tid) (l : List Event) (ht : t ≠ .guard)
    (hr : m.rest t = some l) (hs : m.step (c.run args W) t = none) : l = [] := by
  rcases step_eq_none _ m t hs with h | h | ⟨e, r, h, hen⟩
  · rw [h] at hr
    exact absurd hr (by simp)
  · rw [h] at hr
    simpa using hr.symm
  · exfalso
    rcases blocked_event m e hen with he | ⟨he, -⟩
    · subst he
      have := (send_enabled c args W m hi t r h).2.2
      rw [this] at hen
      exact absurd hen (by simp)
    · subst he
      obtain ⟨-, -, -, ⟨hm0, hw0, -⟩, -, -⟩ := run_counts c args W
      have hmem := Inv_mem_prog hi t .recvDone r h
      cases t with
      | main =>
        rw [List.countP_eq_zero] at hm0
        exact hm0 _ hmem rfl
      | waiter =>
        rw [List.countP_eq_zero] at hw0
        exact hw0 _ hmem rfl
      | guard => exact ht rfl

/-- In a state in which no goroutine can step, the caller and `go wait(err)`
have performed all their events (up to a `cmd.Wait()` that never returns); the
guard has performed all its events if the wait step resolved, and none if
`cmd.Wait()` never returns: it stays blocked on the receive. -/
theorem quiescent_all_done (c : Cmd) (args : List String) (W : World) (m : Machine)
    (hi : m.Inv (c.run args W)) (hq : m.quiescent (c.run args W)) :
    proj .main m.trace = (c.run args W).main ∧
    proj .waiter m.trace = (c.run args W).waiter ∧
    (c.waitsForever args W = false → proj .guard m.trace = (c.run args W).guard) ∧
    (c.waitsForever args W = true → proj .guard m.trace = []) := by
  obtain ⟨q1, q2, q3⟩ := hq
  obtain ⟨hcs, -, -, ⟨hm0, hw0, hg0⟩, hgw, hgg⟩ := run_counts c args W
  obtain ⟨hfgE, -, hgE⟩ := run_events c args W
  have hmain : m.main = [] := not_blocked c args W m hi .main m.main (by decide) rfl q1
  have hpm : proj .main m.trace = (c.run args W).main := by
    have := hi.main
    rwa [hmain, List.append_nil] at this
  have hpw : proj .waiter m.trace = (c.run args W).waiter := by
    rcases hi.waiter with ⟨-, hp, hin⟩ | ⟨r, hs, hp, -⟩
    · rw [hpm, hgw] at hin
      have hf : c.Foreground = true := by simpa using hin
      rw [hp, (hfgE hf).2.1]
    · have := not_blocked c args W m hi .waiter r (by decide) hs q2
      rwa [this, List.append_nil] at hp
  have hrecv : proj .guard m.trace ≠ [] → Event.recvDone ∈ proj .guard m.trace := by
    intro hne
    have hpre := Inv_proj_initial hi .guard
    simp only [Invocation.prog, hgE] at hpre
    obtain ⟨r, hr⟩ := hpre
    cases hpg : proj .guard m.trace with
    | nil => exact absurd hpg hne
    | cons a l =>
      rw [hpg] at hr
      split at hr
      · simp only [List.cons_append, List.cons.injEq] at hr
        rw [hr.1]
        exact List.mem_cons_self _ _
      · simp at hr
  have hchan := hi.chan
  rw [count_eq_countP_isSend, count_eq_countP_isRecv, Machine.events, countP_events,
    countP_events, hpm, hpw, hm0, hw0] at hchan
  refine ⟨hpm, hpw, fun hfor => ?_, fun hfor => ?_⟩
  · rw [hfor] at hcs
    simp only [Bool.false_eq_true, if_false] at hcs
    rcases hi.guard with ⟨-, hp, hin⟩ | ⟨r, hs, hp, -⟩
    · rw [hpm, hgg] at hin
      rw [hp, hgE, if_neg hin]
    · rcases step_eq_none _ m .guard q3 with h | h | ⟨e, r', h, hen⟩
      · simp only [Machine.rest] at h
        rw [h] at hs
        exact absurd hs (by simp)
      · simp only [Machine.rest, hs, Option.some.injEq] at h
        rwa [h, List.append_nil] at hp
      · exfalso
        simp only [Machine.rest, hs, Option.some.injEq] at h
        subst h
        have hT : c.timeout > 0 := by
          by_contra hT
          rw [hgE, if_neg hT] at hp
          simp at hp
        rw [hgE, if_pos hT] at hp
        rcases blocked_event m e hen with he | ⟨he, hlen⟩
        · subst he
          have : Event.sendDone ∈ [Event.recvDone, Event.cancel] := by
            rw [← hp]
            simp
          simp at this
        · subst he
          have hpg : proj .guard m.trace = [] := by
            cases hpg : proj .guard m.trace with
            | nil => rfl
            | cons a l =>
              rw [hpg] at hp
              simp only [List.cons_append, List.cons.injEq] at hp
              obtain ⟨-, h2⟩ := hp
              have : (l ++ Event.recvDone :: r').length = 1 := by rw [h2]; rfl
              cases l with
              | nil =>
                simp only [List.nil_append, List.cons.injEq] at h2
                exact absurd h2.1 (by simp)
              | cons b l' => simp at this
          rw [hpg, hlen] at hchan
          simp only [List.countP_nil] at hchan
          omega
  · rw [hfor] at hcs
    simp only [if_true] at hcs
    by_contra hne
    have hin := hrecv hne
    have hpos : 0 < (proj .guard m.trace).countP Event.isRecv :=
      List.countP_pos_iff.2 ⟨_, hin, rfl⟩
    have hsend : (proj .guard m.trace).countP Event.isSend ≤
        (c.run args W).guard.countP Event.isSend := by
      have := (Inv_proj_initial hi .guard).countP_le Event.isSend
      simpa [Invocation.prog] using this
    omega

/-- In a state in which no goroutine can step, events of each kind have happened
as often as the caller and `go wait(err)` have them in their lists, and, if the
wait step resolved, as the guard has them in its list. -/
theorem quiescent_countP (c : Cmd) (args : List String) (W : World) (m : Machine)
    (hi : m.Inv (c.run args W)) (hq : m.quiescent (c.run args W)) (p : Event → Bool) :
    m.events.countP p = (c.run args W).main.countP p + (c.run args W).waiter.countP p +
      (if c.waitsForever args W then 0 else (c.run args W).guard.countP p) := by
  obtain ⟨h1, h2, h3, h4⟩ := quiescent_all_done c args W m hi hq
  rw [Machine.events, countP_events, h1, h2]
  cases hfor : c.waitsForever args W with
  | false => simp [h3 hfor]
  | true => simp [h4 hfor]

theorem Inv_trace_length {inv : Invocation} {m : Machine} (h : m.Inv inv) :
    m.trace.length ≤ inv.main.length + inv.waiter.length + inv.guard.length := by
  have hc := Inv_countP_le h (fun _ => true)
  simpa [Machine.events, List.countP_true] using hc

theorem reach_snoc (inv : Invocation) (sched : List Tid) (t : Tid) (m' : Machine)
    (h : (inv.reach sched).step inv t = some m') : inv.reach (sched ++ [t]) = m' := by
  have : inv.reach (sched ++ [t]) = ((inv.reach sched).step inv t).getD (inv.reach sched) := by
    simp [Invocation.reach, Machine.exec, List.foldl_append]
  rw [this, h]
  rfl

theorem step_trace_length (inv : Invocation) (m m' : Machine) (t : Tid)
    (h : m.step inv t = some m') : m'.trace.length = m.trace.length + 1 := by
  obtain ⟨e, r, -, -, rfl⟩ := step_spec inv m m' t h
  rw [effect_trace]
  simp

/-- Every run can be continued to a state in which no goroutine can step: the
goroutines have finitely many events, and every step performs one. -/
theorem reach_extend (inv : Invocation) (hwf : inv.WF) (n : Nat) :
    ∀ sched, inv.main.length + inv.waiter.length + inv.guard.length -
        (inv.reach sched).trace.length ≤ n →
      ∃ more, (inv.reach (sched ++ more)).quiescent inv := by
  induction n with
  | zero =>
    intro sched hn
    refine ⟨[], ?_⟩
    rw [List.append_nil]
    have hi := Inv_reach inv hwf sched
    have hb := Inv_trace_length hi
    have key : ∀ t, (inv.reach sched).step inv t = none := by
      intro t
      cases hs : (inv.reach sched).step inv t with
      | none => rfl
      | some m' =>
        exfalso
        have h1 := step_trace_length inv _ m' t hs
        have h2 := Inv_trace_length (Inv_step inv hwf _ m' t hi hs)
        omega
    exact ⟨key _, key _, key _⟩
  | succ n ih =>
    intro sched hn
    by_cases hq : (inv.reach sched).quiescent inv
    · exact ⟨[], by rwa [List.append_nil]⟩
    · have : ∃ t m', (inv.reach sched).step inv t = some m' := by
        by_contra hne
        apply hq
        have key : ∀ t, (inv.reach sched).step inv t = none := by
          intro t
          cases hs : (inv.reach sched).step inv t with
          | none => rfl
          | some m' => exact absurd ⟨t, m', hs⟩ hne
        exact ⟨key _, key _, key _⟩
      obtain ⟨t, m', hs⟩ := this
      have h1 := step_trace_length inv _ m' t hs
      have hr := reach_snoc inv sched t m' hs
      obtain ⟨more, hmore⟩ := ih (sched ++ [t]) (by rw [hr]; omega)
      exact ⟨t :: more, by simpa using hmore⟩

/-- The values `run` returns are the ones of the event `return` of the caller,
and the caller performs that event in every run continued to the end: the
field `result` of the invocation is what the caller of `run` receives. -/
theorem run_result_is_returned (c : Cmd) (args : List String) (W : World) (sched : List Tid) :
    (∀ out er e, Event.ret out er e ∈
        (c.run args W).main ++ (c.run args W).waiter ++ (c.run args W).guard ↔
      (c.run args W).result = some ⟨out, er, e⟩) ∧
    (((c.run args W).reach sched).quiescent (c.run args W) →
      ∀ r, (c.run args W).result = some r →
        Event.ret r.out r.err r.error ∈ ((c.run args W).reach sched).events) := by
  have hret : ∀ out er e, Event.ret out er e ∈
      (c.run args W).main ++ (c.run args W).waiter ++ (c.run args W).guard ↔
      (c.run args W).result = some ⟨out, er, e⟩ := by
    intro out er e
    obtain ⟨hfgE, hbgE, hgE⟩ := run_events c args W
    rw [hgE]
    cases hf : c.Foreground with
    | true =>
      obtain ⟨hm, hw, hres⟩ := hfgE hf
      rw [hm, hw, hres]
      rcases waitStep_shape c args W with ⟨h1, h2, -⟩ | ⟨err, entry, h1, h2, -⟩ |
          ⟨e', entry, h1, h2, -⟩ <;>
        rw [h1, h2] <;> split <;> simp [eq_comm]
    | false =>
      obtain ⟨hm, hw⟩ := hbgE hf
      rw [hm, hw, run_result_background c args W hf]
      rcases waitStep_shape c args W with ⟨h1, -⟩ | ⟨err, entry, h1, -⟩ |
          ⟨e', entry, h1, -⟩ <;>
        rw [h1] <;> split <;> simp [eq_comm]
  refine ⟨hret, fun hq r hr => ?_⟩
  have hi := Inv_reach _ (run_WF c args W) sched
  obtain ⟨h1, h2, -, -⟩ := quiescent_all_done c args W _ hi hq
  have hmem := (hret r.out r.err r.error).2 hr
  rcases List.mem_append.1 hmem with h | h
  · rw [← h1, ← h2] at h
    rcases List.mem_append.1 h with h | h
    · exact mem_events_of_mem_proj _ _ _ h
    · exact mem_events_of_mem_proj _ _ _ h
  · exfalso
    rw [(run_events c args W).2.2] at h
    split at h <;> simp at h

/-- The events of the guard: the receive from `done` and `cancel()` when there
is a timeout, nothing otherwise; none of them is a send or a log entry. -/
theorem run_guard_counts (c : Cmd) (args : List String) (W : World) :
    (c.run args W).guard.countP Event.isSend = 0 ∧
    (c.run args W).guard.countP Event.isLog = 0 ∧
    (c.run args W).guard.countP Event.isCancel = (if c.timeout > 0 then 1 else 0) ∧
    (c.run args W).main.countP Event.isCancel + (c.run args W).waiter.countP Event.isCancel = 0 := by
  obtain ⟨-, -, hcc, -, -, -⟩ := run_counts c args W
  have hg := (run_events c args W).2.2
  have h3 : (c.run args W).guard.countP Event.isCancel = (if c.timeout > 0 then 1 else 0) := by
    rw [hg]
    split <;> simp [List.countP_cons, Event.isCancel]
  refine ⟨?_, ?_, h3, ?_⟩
  · rw [hg]
    split <;> simp [List.countP_cons, Event.isSend]
  · rw [hg]
    split <;> simp [List.countP_cons, Event.isLog]
  · rw [h3] at hcc
    split at hcc <;> omega

/-! ## C9: the completion signal -/

theorem waitsForever_of_start_error (c : Cmd) (args : List String) (W : World) (e : GoError)
    (h : ((c.command args).Start W).2 = some e) : c.waitsForever args W = false := by
  rcases waitStep_shape c args W with ⟨-, -, -, h4⟩ | ⟨_, _, -, -, -, h3, -⟩ | ⟨_, _, -, -, -, h3, -⟩
  · rw [h4] at h
    exact absurd h (by simp)
  · exact h3
  · exact h3

theorem Precedes_of_all (c : Cmd) (args : List String) (W : World) (p q : Event → Bool)
    (h : ∀ t, precedesB p q ((c.run args W).prog t) = true) (sched : List Tid) :
    Precedes p q ((c.run args W).reach sched).events :=
  Precedes_of_progs _ (run_WF c args W) p q (precedesB_sound p q _ (h .main))
    (Or.inl (precedesB_sound p q _ (h .waiter))) (Or.inl (precedesB_sound p q _ (h .guard))) sched

theorem Precedes_start_send (c : Cmd) (args : List String) (W : World) (sched : List Tid) :
    Precedes Event.isStart Event.isSend ((c.run args W).reach sched).events := by
  obtain ⟨h1, h2, h3⟩ := run_start_before_send c args W
  exact Precedes_of_progs _ (run_WF c args W) _ _ (precedesB_sound _ _ _ h1)
    (Or.inr (precedesB_sound _ _ _ h2)) (Or.inl (precedesB_sound _ _ _ h3)) sched

/-- C9 (amended). In every state an invocation can reach, under any schedule of
its goroutines: `done` is made with capacity one before anything else; at most
one signal has been sent on it; a goroutine about to send finds the channel
empty, so the send does not block, whether or not a guard exists to receive;
the send comes after `cmd.Start()`, after the return of `cmd.Wait()` when the
start succeeded, and before the log entry. Every run can be continued until no
goroutine can step, and then exactly one signal has been sent if the wait step
resolved (the start failed, or `cmd.Wait()` returned), and none if `cmd.Wait()`
never returns. -/
theorem done_signal_sent_once (c : Cmd) (args : List String) (W : World) (sched : List Tid) :
    (∃ tail, (c.run args W).main = .makeDone 1 :: tail) ∧
    ((c.run args W).reach sched).events.countP Event.isSend ≤ 1 ∧
    (∀ t r, ((c.run args W).reach sched).rest t = some (.sendDone :: r) →
      ((c.run args W).reach sched).chanCap = 1 ∧ ((c.run args W).reach sched).chanLen = 0 ∧
      Event.enabled ((c.run args W).reach sched) .sendDone = true) ∧
    Precedes Event.isStart Event.isSend ((c.run args W).reach sched).events ∧
    (((c.command args).Start W).2 = none →
      Precedes Event.isWaitReturn Event.isSend ((c.run args W).reach sched).events) ∧
    Precedes Event.isSend Event.isLog ((c.run args W).reach sched).events ∧
    (∃ more, ((c.run args W).reach (sched ++ more)).quiescent (c.run args W)) ∧
    (((c.run args W).reach sched).quiescent (c.run args W) →
      ((c.run args W).reach sched).events.countP Event.isSend =
        if c.waitsForever args W then 0 else 1) ∧
    (∀ e, ((c.command args).Start W).2 = some e → c.waitsForever args W = false) := by
  have hwf := run_WF c args W
  have hi := Inv_reach _ hwf sched
  obtain ⟨hcs, -⟩ := run_counts c args W
  obtain ⟨hg0, -⟩ := run_guard_counts c args W
  refine ⟨hwf.head, ?_, fun t r hr => send_enabled c args W _ hi t r hr,
    Precedes_start_send c args W sched,
    fun hst => Precedes_of_all c args W _ _ (run_waitReturn_before_send c args W hst) sched,
    Precedes_of_all c args W _ _ (fun t => (run_send_log_recv_cancel c args W t).1) sched,
    reach_extend _ hwf _ sched (Nat.le_refl _), fun hq => ?_,
    waitsForever_of_start_error c args W⟩
  · have := Inv_countP_le hi Event.isSend
    rw [hcs] at this
    split at this <;> omega
  · rw [quiescent_countP c args W _ hi hq, hg0, ← hcs, hg0]
    split <;> rfl

/-- Witness of `done_signal_sent_once`: a background call with a timeout, run
to the end; one signal has been sent. -/
theorem done_signal_sent_once_witness :
    ((Cmd.detached.run [] (World.accepting Child.hello)).reach
      [.main, .main, .main, .main, .main, .main, .waiter, .waiter, .waiter, .waiter,
        .guard, .guard]).events.countP Event.isSend = 1 :=
  (done_signal_sent_once Cmd.detached [] (World.accepting Child.hello)
    [.main, .main, .main, .main, .main, .main, .waiter, .waiter, .waiter, .waiter,
      .guard, .guard]).2.2.2.2.2.2.2.1 (by decide)

/-- C9 as stated fails: a foreground call without timeout whose child never
ends. The caller blocks in `cmd.Wait()`; no goroutine can step any more, and no
signal has been sent; no goroutine has a send among its events. -/
theorem done_signal_never_sent_counterexample :
    (Cmd.plain.run [] (World.accepting Child.daemon)).main =
      [.makeDone 1, .start none, .waitCall] ∧
    (Cmd.plain.run [] (World.accepting Child.daemon)).waiter = [] ∧
    (Cmd.plain.run [] (World.accepting Child.daemon)).guard = [] ∧
    ((Cmd.plain.run [] (World.accepting Child.daemon)).reach [.main, .main, .main]).quiescent
      (Cmd.plain.run [] (World.accepting Child.daemon)) ∧
    ((Cmd.plain.run [] (World.accepting Child.daemon)).reach
      [.main, .main, .main]).events.countP Event.isSend = 0 := by
  decide

/-! ## C10: the deadline context and its guard -/

theorem run_timeout_events (c : Cmd) (args : List String) (W : World) :
    ((∃ d, Event.withTimeout d ∈ (c.run args W).main) ↔ c.timeout > 0) ∧
    (∀ d, Event.withTimeout d ∈
        (c.run args W).main ++ (c.run args W).waiter ++ (c.run args W).guard →
      d = c.timeout) ∧
    (Event.goGuard ∈ (c.run args W).main ↔ c.timeout > 0) ∧
    ((c.run args W).guard = if c.timeout > 0 then [.recvDone, .cancel] else []) := by
  obtain ⟨te, ge, wev, retl, serr, -, hT, hW, hF, hg⟩ := run_cases c args W
  rcases hT with ⟨hT, rfl, rfl⟩ | ⟨hT, rfl, rfl⟩ <;>
  rcases hW with ⟨hfor, rfl, rfl, rfl⟩ | ⟨err, entry, out, er, hfor, rfl, rfl, rfl⟩ |
    ⟨e, entry, hfor, rfl, rfl, rfl⟩ <;>
  rcases hF with ⟨hf, hm, hw⟩ | ⟨hf, hm, hw⟩ <;>
  simp [hm, hw, hg, hT, eq_comm]

theorem Precedes_send_cancel (c : Cmd) (args : List String) (W : World) (sched : List Tid) :
    Precedes Event.isSend Event.isCancel ((c.run args W).reach sched).events :=
  Precedes_trans _ _ _ _ (Precedes_send_recv _ (run_WF c args W) sched)
    (Precedes_of_all c args W _ _ (fun t => (run_send_log_recv_cancel c args W t).2) sched)

/-- C10 (amended). The deadline context and the goroutine guarding it are
created if and only if `timeout > 0`: only then does the caller call
`context.WithTimeout` (with `c.timeout`) and start the guard, only then is the
command tied to a context, and otherwise the guard has no events. In every
state an invocation can reach, under any schedule: the guard runs only if
`timeout > 0`; `cancel()` has been called at most once; every call of
`cancel()` comes after the send on `done`, hence after `cmd.Start()` and, when
the start succeeded, after the return of `cmd.Wait()`. Every run can be
continued until no goroutine can step, and then `cancel()` has been called
exactly once if `timeout > 0` and the wait step resolved (the start failed, or
`cmd.Wait()` returned), and not at all if `cmd.Wait()` never returns: the guard
stays blocked on the receive. -/
theorem guard_cancels_once_after_done (c : Cmd) (args : List String) (W : World)
    (sched : List Tid) :
    ((∃ d, Event.withTimeout d ∈ (c.run args W).main) ↔ c.timeout > 0) ∧
    (∀ d, Event.withTimeout d ∈
        (c.run args W).main ++ (c.run args W).waiter ++ (c.run args W).guard →
      d = c.timeout) ∧
    (Event.goGuard ∈ (c.run args W).main ↔ c.timeout > 0) ∧
    ((c.run args W).guard = if c.timeout > 0 then [.recvDone, .cancel] else []) ∧
    ((c.command args).deadline = true ↔ c.timeout > 0) ∧
    (((c.run args W).reach sched).guard ≠ none → c.timeout > 0) ∧
    ((c.run args W).reach sched).events.countP Event.isCancel ≤ 1 ∧
    Precedes Event.isSend Event.isCancel ((c.run args W).reach sched).events ∧
    Precedes Event.isStart Event.isCancel ((c.run args W).reach sched).events ∧
    (((c.command args).Start W).2 = none →
      Precedes Event.isWaitReturn Event.isCancel ((c.run args W).reach sched).events) ∧
    (∃ more, ((c.run args W).reach (sched ++ more)).quiescent (c.run args W)) ∧
    (((c.run args W).reach sched).quiescent (c.run args W) →
      ((c.run args W).reach sched).events.countP Event.isCancel =
        if c.timeout > 0 ∧ c.waitsForever args W = false then 1 else 0) ∧
    (∀ e, ((c.command args).Start W).2 = some e → c.waitsForever args W = false) := by
  have hwf := run_WF c args W
  have hi := Inv_reach _ hwf sched
  obtain ⟨-, -, hcc, -, -, hgg⟩ := run_counts c args W
  obtain ⟨-, -, hgc, hmw⟩ := run_guard_counts c args W
  obtain ⟨t1, t2, t3, t4⟩ := run_timeout_events c args W
  have hsc := Precedes_send_cancel c args W sched
  refine ⟨t1, t2, t3, t4, by simp [Cmd.command], fun hg => ?_, ?_, hsc,
    Precedes_trans _ _ _ _ (Precedes_start_send c args W sched) hsc,
    fun hst => Precedes_trans _ _ _ _
      (Precedes_of_all c args W _ _ (run_waitReturn_before_send c args W hst) sched) hsc,
    reach_extend _ hwf _ sched (Nat.le_refl _), fun hq => ?_,
    waitsForever_of_start_error c args W⟩
  · rcases hi.guard with ⟨hn, -, -⟩ | ⟨r, -, -, hin⟩
    · exact absurd hn hg
    · apply hgg.1
      have := (Inv_proj_initial hi .main).subset hin
      simpa [Invocation.prog] using this
  · have := Inv_countP_le hi Event.isCancel
    rw [hcc] at this
    split at this <;> omega
  · rw [quiescent_countP c args W _ hi hq, hgc, hmw]
    cases hfor : c.waitsForever args W <;> by_cases hT : c.timeout > 0 <;> simp [hT]

/-- Witness of `guard_cancels_once_after_done`: a background call with a timeout
of one second, run to the end; `cancel()` has been called once. -/
theorem guard_cancels_once_after_done_witness :
    ((Cmd.detached.run [] (World.accepting Child.failing)).reach
      [.main, .main, .guard, .main, .main, .main, .main, .waiter, .waiter, .waiter, .waiter,
        .guard, .guard]).events.countP Event.isCancel = 1 :=
  (guard_cancels_once_after_done Cmd.detached [] (World.accepting Child.failing)
    [.main, .main, .guard, .main, .main, .main, .main, .waiter, .waiter, .waiter, .waiter,
      .guard, .guard]).2.2.2.2.2.2.2.2.2.2.2.1 (by decide)

/-- C10 as stated fails: a background call with a timeout of one second whose
child is killed at the deadline but leaves a descendant holding the output pipe
open. `cmd.Wait()` never returns, no signal is sent on `done`, and the guard,
started and blocked on the receive, never calls `cancel()`; no goroutine can
step any more. -/
theorem guard_never_cancels_counterexample :
    Cmd.detached.timeout > 0 ∧
    Child.orphaning.fate (decide (Cmd.detached.timeout > 0)) = .killedAtDeadline ∧
    ((Cmd.detached.command []).Start (World.accepting Child.orphaning)).1.Wait
      (World.accepting Child.orphaning) = none ∧
    (Cmd.detached.run [] (World.accepting Child.orphaning)).waiter = [.waitCall] ∧
    ((Cmd.detached.run [] (World.accepting Child.orphaning)).reach
      [.main, .main, .main, .main, .main, .main, .waiter, .guard]).quiescent
        (Cmd.detached.run [] (World.accepting Child.orphaning)) ∧
    ((Cmd.detached.run [] (World.accepting Child.orphaning)).reach
      [.main, .main, .main, .main, .main, .main, .waiter, .guard]).guard =
        some [.recvDone, .cancel] ∧
    ((Cmd.detached.run [] (World.accepting Child.orphaning)).reach
      [.main, .main, .main, .main, .main, .main, .waiter, .guard]).events.countP
        Event.isCancel = 0 := by
  decide

/-! ## C7: the log entry -/

/-- Every log entry of an invocation is the entry of `wait`: error level with
the error attached when `wait` ends with a non-nil error, info level without
error otherwise; in a foreground call that error is the one `run` returns. -/
theorem run_log_entries (c : Cmd) (args : List String) (W : World) (entry : LogEntry)
    (h : Event.log entry ∈
      (c.run args W).main ++ (c.run args W).waiter ++ (c.run args W).guard) :
    ∃ r, (c.waitStep args W).result = some r ∧
      entry = ⟨if r.error ≠ none then .error else .info, "exit", c.Command :: args, "",
        r.error⟩ ∧
      (c.Foreground = true → (c.run args W).result = some r) := by
  obtain ⟨hfgE, hbgE, hgE⟩ := run_events c args W
  have hin : Event.log entry ∈ (c.waitStep args W).events := by
    rw [hgE] at h
    cases hf : c.Foreground with
    | true =>
      obtain ⟨hm, hw, -⟩ := hfgE hf
      rw [hm, hw] at h
      split at h <;> split at h <;> simpa using h
    | false =>
      obtain ⟨hm, hw⟩ := hbgE hf
      rw [hm, hw] at h
      split at h <;> simpa using h
  have hres : c.Foreground = true → (c.run args W).result = (c.waitStep args W).result :=
    fun hf => (hfgE hf).2.2
  rcases waitStep_shape c args W with ⟨h1, -⟩ | ⟨err, entry', h1, h2, h3, -⟩ |
    ⟨e, entry', h1, h2, h3, -⟩
  · rw [h1] at hin
    simp at hin
  · rw [h1] at hin
    simp only [List.mem_cons, Event.log.injEq, List.mem_singleton, List.not_mem_nil,
      or_false, false_or, reduceCtorEq] at hin
    exact ⟨_, h2, by rw [hin, h3], fun hf => by rw [hres hf, h2]⟩
  · rw [h1] at hin
    simp only [List.mem_cons, Event.log.injEq, List.mem_singleton, List.not_mem_nil,
      or_false, false_or, reduceCtorEq] at hin
    exact ⟨_, h2, by rw [hin, h3]; simp, fun hf => by rw [hres hf, h2]⟩

/-- C7 (amended). In every state an invocation can reach, under any schedule:
at most one log entry has been emitted; every log entry comes after
`cmd.Start()`, after the return of `cmd.Wait()` when the start succeeded, and
after the send on `done`; in a foreground call the return of `run` comes after
the log entry. Every run can be continued until no goroutine can step, and then
exactly one entry has been emitted if the wait step resolved (the start failed,
or `cmd.Wait()` returned), and none if `cmd.Wait()` never returns. The entry is
at error level and carries the resulting error if that error is not nil, and is
at info level without error otherwise; in a foreground call the resulting error
is the error `run` returns. -/
theorem exit_logged_once_after_wait (c : Cmd) (args : List String) (W : World)
    (sched : List Tid) :
    ((c.run args W).reach sched).events.countP Event.isLog ≤ 1 ∧
    Precedes Event.isStart Event.isLog ((c.run args W).reach sched).events ∧
    (((c.command args).Start W).2 = none →
      Precedes Event.isWaitReturn Event.isLog ((c.run args W).reach sched).events) ∧
    Precedes Event.isSend Event.isLog ((c.run args W).reach sched).events ∧
    (c.Foreground = true →
      Precedes Event.isLog Event.isRet ((c.run args W).reach sched).events) ∧
    (∃ more, ((c.run args W).reach (sched ++ more)).quiescent (c.run args W)) ∧
    (((c.run args W).reach sched).quiescent (c.run args W) →
      ((c.run args W).reach sched).events.countP Event.isLog =
        if c.waitsForever args W then 0 else 1) ∧
    (∀ e, ((c.command args).Start W).2 = some e → c.waitsForever args W = false) ∧
    (∀ entry, Event.log entry ∈
        (c.run args W).main ++ (c.run args W).waiter ++ (c.run args W).guard →
      ∃ r, (c.waitStep args W).result = some r ∧
        entry = ⟨if r.error ≠ none then .error else .info, "exit", c.Command :: args, "",
          r.error⟩ ∧
        (c.Foreground = true → (c.run args W).result = some r)) := by
  have hwf := run_WF c args W
  have hi := Inv_reach _ hwf sched
  obtain ⟨-, hcl, -⟩ := run_counts c args W
  obtain ⟨-, hgl, -⟩ := run_guard_counts c args W
  have hsl := Precedes_of_all c args W _ _ (fun t => (run_send_log_recv_cancel c args W t).1) sched
  refine ⟨?_, Precedes_trans _ _ _ _ (Precedes_start_send c args W sched) hsl,
    fun hst => Precedes_trans _ _ _ _
      (Precedes_of_all c args W _ _ (run_waitReturn_before_send c args W hst) sched) hsl,
    hsl, fun hf => Precedes_of_all c args W _ _ (run_log_before_ret c args W hf) sched,
    reach_extend _ hwf _ sched (Nat.le_refl _), fun hq => ?_,
    waitsForever_of_start_error c args W, run_log_entries c args W⟩
  · have := Inv_countP_le hi Event.isLog
    rw [hcl] at this
    split at this <;> omega
  · rw [quiescent_countP c args W _ hi hq, hgl, ← hcl, hgl]
    split <;> rfl

/-- Witness of `exit_logged_once_after_wait`: a foreground call whose child
exits with status one, run to the end; one entry has been logged. -/
theorem exit_logged_once_after_wait_witness :
    ((Cmd.plain.run [] (World.accepting Child.failing)).reach
      [.main, .main, .main, .main, .main, .main, .main]).events.countP Event.isLog = 1 :=
  (exit_logged_once_after_wait Cmd.plain [] (World.accepting Child.failing)
    [.main, .main, .main, .main, .main, .main, .main]).2.2.2.2.2.2.1 (by decide)

/-- C7 as stated fails: a background call without timeout whose child never
ends. After the caller has returned and `go wait(err)` has called `cmd.Wait()`,
no goroutine can step any more, and no entry has been logged; no goroutine has
a log entry among its events. -/
theorem exit_never_logged_counterexample :
    (Cmd.daemonized.run [] (World.accepting Child.daemon)).main =
      [.makeDone 1, .start none, .goWait, .ret "" "" none] ∧
    (Cmd.daemonized.run [] (World.accepting Child.daemon)).waiter = [.waitCall] ∧
    (Cmd.daemonized.run [] (World.accepting Child.daemon)).guard = [] ∧
    ((Cmd.daemonized.run [] (World.accepting Child.daemon)).reach
      [.main, .main, .main, .main, .waiter]).quiescent
        (Cmd.daemonized.run [] (World.accepting Child.daemon)) ∧
    ((Cmd.daemonized.run [] (World.accepting Child.daemon)).reach
      [.main, .main, .main, .main, .waiter]).events.countP Event.isLog = 0 := by
  decide

end Command
